import Mathlib

/-
Verification development for the hly chapter-processing pipeline.

The Python sources are shallowly embedded over `List Char` (Python strings are
sequences of Unicode code points, which `List Char` models exactly).  Each
definition mirrors one Python function or regular-expression rewrite; the
specific regular expressions of the source are implemented as dedicated
scanners with the same matching semantics (leftmost match, greedy/lazy
quantifier behaviour as noted at each definition).
-/

set_option maxRecDepth 20000

namespace Hly

/-- Character-list view of a string literal (Python strings are char sequences). -/
def chars (s : String) : List Char := s.data

/-- ASCII decimal digit, as matched by the sources' `\d` and `[0-9]` and by
    `str.isdigit` on the numerals occurring in this pipeline. -/
def isDigitCh (c : Char) : Bool := '0' ≤ c && c ≤ '9'

/-- Value of `int()` on a digit string. -/
def digitsToNat (s : List Char) : Nat := s.foldl (fun a c => a * 10 + (c.toNat - 48)) 0

/-- Decimal rendering of a number, as Python's `str`/f-string interpolation. -/
def natChars (n : Nat) : List Char := Nat.toDigits 10 n

/-- Whitespace class modelling Python's `\s` and `str.strip`: ASCII whitespace
    plus the Unicode spaces that can occur in this corpus. -/
def pyWS (c : Char) : Bool :=
  c = ' ' || c = '\t' || c = '\n' || c = '\r' || c = '\x0b' || c = '\x0c' ||
  c = ' ' || c = '　'

/-- Python `str.lstrip()`. -/
def lstripW (s : List Char) : List Char := s.dropWhile pyWS

/-- Python `str.rstrip()`. -/
def rstripW (s : List Char) : List Char := (s.reverse.dropWhile pyWS).reverse

/-- Python `str.strip()`. -/
def pyStrip (s : List Char) : List Char := lstripW (rstripW s)

/-- Python `'\n'.join` / `sep.join` over a piece list. -/
def joinWith (sep : List Char) : List (List Char) → List Char
  | [] => []
  | [x] => x
  | x :: y :: r => x ++ sep ++ joinWith sep (y :: r)

/-- Python `' '.join`. -/
def joinSp : List (List Char) → List Char := joinWith [' ']

/-- Python `str.split('\n')`: always returns one piece more than the number of
    newlines; pieces contain no newline. -/
def splitNl : List Char → List (List Char)
  | [] => [[]]
  | c :: cs =>
    match splitNl cs with
    | [] => [[]]
    | p :: ps => if c = '\n' then [] :: p :: ps else (c :: p) :: ps

/-- Concatenation of a list of lines that still carry their newline characters
    (the result of joining slices of `readlines`). -/
def joinAll (ls : List (List Char)) : List Char := ls.flatten

/-! ### Chinese numeral parsing — `analyze_chapters.chinese_to_arabic` -/

/-- The `char_map` dictionary of `analyze_chapters.py`. -/
def char_map (c : Char) : Option Nat :=
  if c = '一' then some 1 else if c = '二' then some 2 else if c = '三' then some 3
  else if c = '四' then some 4 else if c = '五' then some 5 else if c = '六' then some 6
  else if c = '七' then some 7 else if c = '八' then some 8 else if c = '九' then some 9
  else if c = '十' then some 10 else if c = '零' then some 0 else if c = '百' then some 100
  else none

/-- `char_map.get(c, 0)` of the source. -/
def char_map_d (c : Char) : Nat := (char_map c).getD 0

/-- `analyze_chapters.chinese_to_arabic`, branch for branch.  Branch order and
    the `.get(x, 0)` defaults are exactly those of the source. -/
def chinese_to_arabic (s : List Char) : Option Nat :=
  if s.isEmpty then none
  else if s = chars "一百" then some 100
  else if s.head? = some '十' ∧ s.length = 2 then some (10 + char_map_d (s.getD 1 ' '))
  else if s.getLast? = some '十' ∧ s.length = 2 then some (char_map_d (s.getD 0 ' ') * 10)
  else if s.contains '十' ∧ s.length = 3 then
    some (char_map_d (s.getD 0 ' ') * 10 + char_map_d (s.getD 2 ' '))
  else if s.length = 1 then char_map (s.getD 0 ' ')
  else none

/-! ### Chinese numeral parsing — `md/process_chapters_reusable.py` (table based) -/

def CHINESE_DIGITS : List (List Char × Nat) := [
  (chars "零", 0),
  (chars "一", 1),
  (chars "二", 2),
  (chars "三", 3),
  (chars "四", 4),
  (chars "五", 5),
  (chars "六", 6),
  (chars "七", 7),
  (chars "八", 8),
  (chars "九", 9),
  (chars "十", 10),
  (chars "十一", 11),
  (chars "十二", 12),
  (chars "十三", 13),
  (chars "十四", 14),
  (chars "十五", 15),
  (chars "十六", 16),
  (chars "十七", 17),
  (chars "十八", 18),
  (chars "十九", 19),
  (chars "二十", 20),
  (chars "二十一", 21),
  (chars "二十二", 22),
  (chars "二十三", 23),
  (chars "二十四", 24),
  (chars "二十五", 25),
  (chars "二十六", 26),
  (chars "二十七", 27),
  (chars "二十八", 28),
  (chars "二十九", 29),
  (chars "三十", 30),
  (chars "三十一", 31),
  (chars "三十二", 32),
  (chars "三十三", 33),
  (chars "三十四", 34),
  (chars "三十五", 35),
  (chars "三十六", 36),
  (chars "三十七", 37),
  (chars "三十八", 38),
  (chars "三十九", 39),
  (chars "四十", 40),
  (chars "四十一", 41),
  (chars "四十二", 42),
  (chars "四十三", 43),
  (chars "四十四", 44),
  (chars "四十五", 45),
  (chars "四十六", 46),
  (chars "四十七", 47),
  (chars "四十八", 48),
  (chars "四十九", 49),
  (chars "五十", 50),
  (chars "五十一", 51),
  (chars "五十二", 52),
  (chars "五十三", 53),
  (chars "五十四", 54),
  (chars "五十五", 55),
  (chars "五十六", 56),
  (chars "五十七", 57),
  (chars "五十八", 58),
  (chars "五十九", 59),
  (chars "六十", 60),
  (chars "六十一", 61),
  (chars "六十二", 62),
  (chars "六十三", 63),
  (chars "六十四", 64),
  (chars "六十五", 65),
  (chars "六十六", 66),
  (chars "六十七", 67),
  (chars "六十八", 68),
  (chars "六十九", 69),
  (chars "七十", 70),
  (chars "七十一", 71),
  (chars "七十二", 72),
  (chars "七十三", 73),
  (chars "七十四", 74),
  (chars "七十五", 75),
  (chars "七十六", 76),
  (chars "七十七", 77),
  (chars "七十八", 78),
  (chars "七十九", 79),
  (chars "八十", 80),
  (chars "八十一", 81),
  (chars "八十二", 82),
  (chars "八十三", 83),
  (chars "八十四", 84),
  (chars "八十五", 85),
  (chars "八十六", 86),
  (chars "八十七", 87),
  (chars "八十八", 88),
  (chars "八十九", 89),
  (chars "九十", 90),
  (chars "九十一", 91),
  (chars "九十二", 92),
  (chars "九十三", 93),
  (chars "九十四", 94),
  (chars "九十五", 95),
  (chars "九十六", 96),
  (chars "九十七", 97),
  (chars "九十八", 98),
  (chars "九十九", 99),
  (chars "一百", 100)
]

/-- `md/process_chapters_reusable.chinese_to_arabic`: `CHINESE_DIGITS.get(s, None)`. -/
def chinese_to_arabic_table (s : List Char) : Option Nat :=
  (CHINESE_DIGITS.find? (fun p => p.1 == s)).map (·.2)

/-- `md/process_chapters_reusable.normalize_chapter_number`. -/
def normalize_chapter_number (s : List Char) : Option Nat :=
  if !s.isEmpty && s.all isDigitCh then some (digitsToNat s)
  else chinese_to_arabic_table s

/-- Standard rendering of n (1..100) in the numeral forms the pipeline supports:
    single digits, 十/十X, X十, X十Y, 一百 — the key set of `CHINESE_DIGITS`. -/
def renderChinese (n : Nat) : List Char :=
  let digit : Nat → Char := fun d =>
    if d = 1 then '一' else if d = 2 then '二' else if d = 3 then '三'
    else if d = 4 then '四' else if d = 5 then '五' else if d = 6 then '六'
    else if d = 7 then '七' else if d = 8 then '八' else '九'
  if n = 100 then chars "一百"
  else if n < 10 then [digit n]
  else
    (if n / 10 = 1 then ['十'] else [digit (n / 10), '十']) ++
    (if n % 10 = 0 then [] else [digit (n % 10)])

/-- C1 counterexample: the structural parser of `analyze_chapters.py` does not
    return `None` on every token outside the supported composition — the
    non-standard two-character shape 百十 parses to 1000 (the `X十` branch looks
    up 百 with default handling) and 十一一 parses to 101 (the length-3 branch
    does not require 十 in the middle), instead of being unresolvable. -/
theorem c1_counterexample :
    chinese_to_arabic (chars "百十") = some 1000 ∧
    chinese_to_arabic (chars "十一一") = some 101 := by decide

/-- C1 (amended): for every n in 1..100 the rendered numeral round-trips
    through both parsers (`analyze_chapters.chinese_to_arabic` and
    `normalize_chapter_number`, also on Arabic digits), and canonical
    out-of-scope tokens such as 一百一 are unresolvable; the table-based
    parser also rejects the non-standard shapes the structural parser
    mis-parses (e.g. 百十). -/
theorem c1_numeral_parser_amended :
    (∀ n : Nat, n < 100 →
      chinese_to_arabic (renderChinese (n + 1)) = some (n + 1) ∧
      normalize_chapter_number (renderChinese (n + 1)) = some (n + 1) ∧
      normalize_chapter_number (natChars (n + 1)) = some (n + 1)) ∧
    chinese_to_arabic (chars "一百一") = none ∧
    normalize_chapter_number (chars "一百一") = none ∧
    normalize_chapter_number (chars "百十") = none := by decide

/-- Witness for C1: instantiation of the round-trip at n = 37. -/
theorem c1_numeral_parser_witness :
    36 < 100 ∧ (chinese_to_arabic (renderChinese 37) = some 37 ∧
      normalize_chapter_number (renderChinese 37) = some 37 ∧
      normalize_chapter_number (natChars 37) = some 37) :=
  ⟨by decide, c1_numeral_parser_amended.1 36 (by decide)⟩

/-! ### Chapter marker scanning — `analyze_chapters.find_chapters` -/

/-- The character class `[一二三四五六七八九十百]`. -/
def isChineseNumCh (c : Char) : Bool :=
  c = '一' || c = '二' || c = '三' || c = '四' || c = '五' || c = '六' ||
  c = '七' || c = '八' || c = '九' || c = '十' || c = '百'

/-- All matches, in order, of a pattern 第\<class\>+\<unit\> in a line
    (`re.finditer`).  Scanning proceeds character by character; this agrees
    with the engine's continue-after-match rule because 第 occurs neither in a
    numeral run nor as a unit character, so no match can begin inside
    another one. -/
def famMatches (cls : Char → Bool) (u : Char) : List Char → List (List Char)
  | [] => []
  | c :: cs =>
    let run := cs.takeWhile cls
    if c = '第' ∧ run ≠ [] ∧ (cs.drop run.length).head? = some u then
      ('第' :: (run ++ [u])) :: famMatches cls u cs
    else famMatches cls u cs

/-- `re.search(r'第(<class>+)', s)`: group 1 of the first match — the first 第
    followed by a nonempty class run (the run is maximal, as the greedy `+`). -/
def searchNumGroup (cls : Char → Bool) : List Char → Option (List Char)
  | [] => none
  | c :: cs =>
    let run := cs.takeWhile cls
    if c = '第' ∧ run ≠ [] then some run else searchNumGroup cls cs

/-- Numeric part of `analyze_chapters.extract_chapter_number`: an embedded
    Arabic run is preferred; otherwise a Chinese-numeral run resolved through
    `chinese_to_arabic` (the source also returns the match text unchanged). -/
def extract_chapter_number (s : List Char) : Option Nat :=
  match searchNumGroup isDigitCh s with
  | some ds => some (digitsToNat ds)
  | none =>
    match searchNumGroup isChineseNumCh s with
    | some g => chinese_to_arabic g
    | none => none

/-- One entry of the `chapters` list built by `find_chapters`; `ptype` indexes
    the pattern family list of the source in order (0 = Arabic+回,
    1 = Chinese+回, 2 = Arabic+章, 3 = Chinese+章). -/
structure Marker where
  line : Nat
  original : List Char
  number : Nat
  ptype : Nat
  context : List Char
deriving DecidableEq, Repr

/-- Character class of pattern family i. -/
def famCls : Nat → (Char → Bool)
  | 0 => isDigitCh
  | 1 => isChineseNumCh
  | 2 => isDigitCh
  | _ => isChineseNumCh

/-- Unit character of pattern family i. -/
def famUnitCh : Nat → Char
  | 0 => '回'
  | 1 => '回'
  | _ => '章'

/-- Inner loop of `find_chapters` over the matches of one family: the first
    match whose number resolves is appended and the loop breaks; unresolvable
    matches are passed over. -/
def firstResolvable : List (List Char) → Option (List Char × Nat)
  | [] => none
  | m :: ms =>
    match extract_chapter_number m with
    | some n => some (m, n)
    | none => firstResolvable ms

/-- One family step of the per-line loop.  `none` means the family has no
    match at all and the next family is tried; `some r` means the family had a
    match, so the family loop breaks (the source's
    `if any(re.finditer(pattern, line)): break`) with result `r`. -/
def tryFam (i : Nat) (lineNum : Nat) (l : List Char) : Option (Option Marker) :=
  let ms := famMatches (famCls i) (famUnitCh i) l
  if ms.isEmpty then none
  else some ((firstResolvable ms).map
    (fun p => ⟨lineNum, p.1, p.2, i, (pyStrip l).take 100⟩))

/-- Per-line body of the `find_chapters` loop (families tried in source
    order). -/
def scan_line (lineNum : Nat) (l : List Char) : Option Marker :=
  match tryFam 0 lineNum l with
  | some r => r
  | none =>
    match tryFam 1 lineNum l with
    | some r => r
    | none =>
      match tryFam 2 lineNum l with
      | some r => r
      | none =>
        match tryFam 3 lineNum l with
        | some r => r
        | none => none

/-- The scan loop of `find_chapters`, line numbers from `enumerate(f, 1)`. -/
def scanAll (i : Nat) : List (List Char) → List Marker
  | [] => []
  | l :: rest => (scan_line i l).toList ++ scanAll (i + 1) rest

/-- Stable insertion by line number (insert after strictly smaller keys,
    before larger-or-equal ones coming later in the input). -/
def insertByLine (m : Marker) : List Marker → List Marker
  | [] => [m]
  | x :: xs => if x.line < m.line then x :: insertByLine m xs else m :: x :: xs

/-- Stable sort by line number, modelling `chapters.sort(key=lambda x: x['line'])`. -/
def sortByLine : List Marker → List Marker
  | [] => []
  | m :: ms => insertByLine m (sortByLine ms)

/-- `analyze_chapters.find_chapters` on an in-memory line list. -/
def find_chapters (lines : List (List Char)) : List Marker :=
  sortByLine (scanAll 1 lines)

example :
    find_chapters [chars "abc", chars "第3回 xx", chars "第十二章"] =
      [⟨2, chars "第3回", 3, 0, chars "第3回 xx"⟩,
       ⟨3, chars "第十二章", 12, 3, chars "第十二章"⟩] := by decide

/-! ### Index analysis — `analyze_chapters.analyze_chapters` -/

/-- Python `min` over a nonempty sequence (0 for the empty list, unused). -/
def minOf : List Nat → Nat
  | [] => 0
  | x :: xs => xs.foldl Nat.min x

/-- Python `max` over a nonempty sequence (0 for the empty list, unused). -/
def maxOf : List Nat → Nat
  | [] => 0
  | x :: xs => xs.foldl Nat.max x

/-- The `missing_numbers` field computed by `analyze_chapters`:
    `sorted(set(range(min, max + 1)) - found)` when the chapter list is
    nonempty, `[]` otherwise. -/
def analyze_missing_numbers (chaps : List Marker) : List Nat :=
  if chaps.isEmpty then []
  else
    let nums := chaps.map (·.number)
    (List.range' (minOf nums) (maxOf nums + 1 - minOf nums)).filter
      (fun n => !nums.contains n)

example :
    analyze_missing_numbers
      [⟨1, [], 1, 0, []⟩, ⟨2, [], 2, 0, []⟩, ⟨3, [], 4, 0, []⟩, ⟨4, [], 7, 0, []⟩] =
      [3, 5, 6] := by decide

/-! ### Lemmas about the scanner (C5) -/

theorem tryFam_line {i n : Nat} {l : List Char} {m : Marker}
    (h : tryFam i n l = some (some m)) : m.line = n := by
  simp only [tryFam] at h
  split at h
  · exact absurd h (by simp)
  · rw [Option.some_inj] at h
    rcases Option.map_eq_some'.mp h with ⟨p, _, hp⟩
    rw [← hp]

theorem scan_line_line {n : Nat} {l : List Char} {m : Marker}
    (h : scan_line n l = some m) : m.line = n := by
  unfold scan_line at h
  cases h0 : tryFam 0 n l with
  | some r =>
    rw [h0] at h
    have hr : r = some m := h
    exact tryFam_line (hr ▸ h0)
  | none =>
    rw [h0] at h
    cases h1 : tryFam 1 n l with
    | some r =>
      rw [h1] at h
      have hr : r = some m := h
      exact tryFam_line (hr ▸ h1)
    | none =>
      rw [h1] at h
      cases h2 : tryFam 2 n l with
      | some r =>
        rw [h2] at h
        have hr : r = some m := h
        exact tryFam_line (hr ▸ h2)
      | none =>
        rw [h2] at h
        cases h3 : tryFam 3 n l with
        | some r =>
          rw [h3] at h
          have hr : r = some m := h
          exact tryFam_line (hr ▸ h3)
        | none =>
          rw [h3] at h
          exact absurd (show (none : Option Marker) = some m from h) (by simp)

theorem scanAll_eq_filterMap :
    ∀ (lines : List (List Char)) (i : Nat),
      scanAll i lines =
        (List.range lines.length).filterMap (fun j => scan_line (i + j) (lines.getD j []))
  | [], i => by simp [scanAll]
  | l :: rest, i => by
    rw [scanAll, scanAll_eq_filterMap rest (i + 1)]
    rw [List.length_cons, List.range_succ_eq_map, List.filterMap_cons, List.filterMap_map]
    have harg : ((fun j => scan_line (i + j) ((l :: rest).getD j [])) ∘ Nat.succ) =
        fun j => scan_line (i + 1 + j) (rest.getD j []) := by
      funext j
      simp only [Function.comp_apply, List.getD_cons_succ]
      congr 1
      omega
    rw [harg]
    cases hs : scan_line (i + 0) ((l :: rest).getD 0 []) with
    | none =>
      simp only [List.getD_cons_zero, Nat.add_zero] at hs
      simp [hs]
    | some m =>
      simp only [List.getD_cons_zero, Nat.add_zero] at hs
      simp [hs]

theorem scanAll_line_lb :
    ∀ (lines : List (List Char)) (i : Nat), ∀ m ∈ scanAll i lines, i ≤ m.line
  | [], _ => by simp [scanAll]
  | l :: rest, i => by
    intro m hm
    simp only [scanAll, List.mem_append] at hm
    rcases hm with hm | hm
    · have : scan_line i l = some m := Option.mem_toList.mp hm
      rw [scan_line_line this]
    · exact Nat.le_of_succ_le (scanAll_line_lb rest (i + 1) m hm)

theorem scanAll_chain :
    ∀ (lines : List (List Char)) (i : Nat),
      List.Chain' (fun a b => a.line < b.line) (scanAll i lines)
  | [], _ => by simp [scanAll]
  | l :: rest, i => by
    cases hs : scan_line i l with
    | none => simpa [scanAll, hs] using scanAll_chain rest (i + 1)
    | some m =>
      simp only [scanAll, hs, Option.toList_some, List.singleton_append]
      refine List.chain'_cons'.mpr ⟨?_, scanAll_chain rest (i + 1)⟩
      intro y hy
      have hyl := scanAll_line_lb rest (i + 1) y (List.mem_of_mem_head? hy)
      have hm := scan_line_line hs
      omega

theorem insertByLine_of_lt {m : Marker} {l : List Marker}
    (h : ∀ y ∈ l.head?, m.line < y.line) : insertByLine m l = m :: l := by
  cases l with
  | nil => rfl
  | cons x xs =>
    have hx := h x rfl
    simp only [insertByLine, if_neg (by omega : ¬ x.line < m.line)]

theorem sortByLine_of_chain :
    ∀ l : List Marker, List.Chain' (fun a b => a.line < b.line) l → sortByLine l = l
  | [], _ => rfl
  | m :: ms, h => by
    rw [sortByLine, sortByLine_of_chain ms (List.chain'_cons'.mp h).2]
    exact insertByLine_of_lt (List.chain'_cons'.mp h).1

/-- C5 counterexample: on the line 第一百一回第五回 the first match of the
    first matching family (第一百一回) has an unresolvable numeral, yet the
    scanner still emits a marker — taken from the family's second match
    第五回 — instead of only ever using the family's first match. -/
theorem c5_counterexample :
    famMatches isChineseNumCh '回' (chars "第一百一回第五回") =
      [chars "第一百一回", chars "第五回"] ∧
    extract_chapter_number (chars "第一百一回") = none ∧
    find_chapters [chars "第一百一回第五回"] =
      [⟨1, chars "第五回", 5, 1, chars "第一百一回第五回"⟩] := by decide

/-- C5 (amended): the scanner yields at most one marker per line — the first
    resolvable match of the first pattern family that matches the line
    (`scan_line`); unresolvable matches are skipped silently, and the output
    is exactly the per-line results in line order (the final sort is the
    identity), with strictly increasing line numbers. -/
theorem c5_scanner_amended (lines : List (List Char)) :
    find_chapters lines =
      (List.range lines.length).filterMap (fun j => scan_line (1 + j) (lines.getD j [])) ∧
    List.Chain' (fun a b => a.line < b.line) (find_chapters lines) := by
  have hid : find_chapters lines = scanAll 1 lines := by
    rw [find_chapters, sortByLine_of_chain _ (scanAll_chain lines 1)]
  exact ⟨by rw [hid, scanAll_eq_filterMap], by rw [hid]; exact scanAll_chain lines 1⟩

/-! ### Lemmas about min/max folds (C9) -/

theorem foldl_min_le_init : ∀ (xs : List Nat) (a : Nat), xs.foldl Nat.min a ≤ a
  | [], a => Nat.le_refl a
  | x :: xs, a =>
    Nat.le_trans (foldl_min_le_init xs (Nat.min a x)) (Nat.min_le_left a x)

theorem foldl_min_le_mem : ∀ (xs : List Nat) (a : Nat), ∀ m ∈ xs, xs.foldl Nat.min a ≤ m
  | [], _, m, hm => by simp at hm
  | x :: xs, a, m, hm => by
    rcases List.mem_cons.mp hm with h | h
    · subst h
      exact Nat.le_trans (foldl_min_le_init xs (Nat.min a m)) (Nat.min_le_right a m)
    · exact foldl_min_le_mem xs (Nat.min a x) m h

theorem le_foldl_max_init : ∀ (xs : List Nat) (a : Nat), a ≤ xs.foldl Nat.max a
  | [], a => Nat.le_refl a
  | x :: xs, a =>
    Nat.le_trans (Nat.le_max_left a x) (le_foldl_max_init xs (Nat.max a x))

theorem le_foldl_max_mem : ∀ (xs : List Nat) (a : Nat), ∀ m ∈ xs, m ≤ xs.foldl Nat.max a
  | [], _, m, hm => by simp at hm
  | x :: xs, a, m, hm => by
    rcases List.mem_cons.mp hm with h | h
    · subst h
      exact Nat.le_trans (Nat.le_max_right a m) (le_foldl_max_init xs (Nat.max a m))
    · exact le_foldl_max_mem xs (Nat.max a x) m h

theorem notContains_iff {l : List Nat} {n : Nat} : ((!l.contains n) = true) ↔ n ∉ l := by
  simp [List.contains]

theorem minOf_le {l : List Nat} {m : Nat} (hm : m ∈ l) : minOf l ≤ m := by
  cases l with
  | nil => simp at hm
  | cons x xs =>
    rcases List.mem_cons.mp hm with h | h
    · subst h; exact foldl_min_le_init xs m
    · exact foldl_min_le_mem xs x m h

theorem le_maxOf {l : List Nat} {m : Nat} (hm : m ∈ l) : m ≤ maxOf l := by
  cases l with
  | nil => simp at hm
  | cons x xs =>
    rcases List.mem_cons.mp hm with h | h
    · subst h; exact le_foldl_max_init xs m
    · exact le_foldl_max_mem xs x m h

/-- C9: `missingNumbers` is exactly the set of integers in the closed range
    between the minimum and maximum observed numbers that are absent from the
    observed numbers (with `minOf`/`maxOf` certified as true bounds); it is
    `[3, 5, 6]` for numbers {1, 2, 4, 7}; and it is empty for zero or one
    marker. -/
theorem c9_missing_numbers :
    (∀ chaps : List Marker, chaps ≠ [] →
      ((∀ n : Nat, n ∈ analyze_missing_numbers chaps ↔
          (minOf (chaps.map (·.number)) ≤ n ∧ n ≤ maxOf (chaps.map (·.number)) ∧
           n ∉ chaps.map (·.number))) ∧
        ∀ m ∈ chaps.map (·.number),
          minOf (chaps.map (·.number)) ≤ m ∧ m ≤ maxOf (chaps.map (·.number)))) ∧
    (∀ chaps : List Marker, chaps.length ≤ 1 → analyze_missing_numbers chaps = []) ∧
    analyze_missing_numbers
      [⟨1, [], 1, 0, []⟩, ⟨2, [], 2, 0, []⟩, ⟨3, [], 4, 0, []⟩, ⟨4, [], 7, 0, []⟩] =
      [3, 5, 6] := by
  refine ⟨?_, ?_, by decide⟩
  · intro chaps hne
    have hbounds : ∀ m ∈ chaps.map (·.number),
        minOf (chaps.map (·.number)) ≤ m ∧ m ≤ maxOf (chaps.map (·.number)) :=
      fun m hm => ⟨minOf_le hm, le_maxOf hm⟩
    refine ⟨?_, hbounds⟩
    intro n
    have hnums : chaps.map (·.number) ≠ [] := by
      simpa using hne
    obtain ⟨m0, hm0⟩ := List.exists_mem_of_ne_nil _ hnums
    have hmm : minOf (chaps.map (·.number)) ≤ maxOf (chaps.map (·.number)) :=
      Nat.le_trans (minOf_le hm0) (le_maxOf hm0)
    simp only [analyze_missing_numbers]
    rw [if_neg (by simp [List.isEmpty_iff, hne])]
    simp only [List.mem_filter, List.mem_range'_1, notContains_iff]
    constructor
    · rintro ⟨⟨h1, h2⟩, h3⟩
      exact ⟨h1, by omega, h3⟩
    · rintro ⟨h1, h2, h3⟩
      exact ⟨⟨h1, by omega⟩, h3⟩
  · intro chaps hlen
    match chaps, hlen with
    | [], _ => rfl
    | [x], _ =>
      have h1 : x.number + 1 - x.number = 1 := by omega
      simp [analyze_missing_numbers, minOf, maxOf, h1, List.range', List.contains]

/-- Witness for C9: the characterization instantiated at the marker list with
    numbers {1, 2, 4, 7} and n = 5. -/
theorem c9_witness :
    ([⟨1, [], 1, 0, []⟩, ⟨2, [], 2, 0, []⟩, ⟨3, [], 4, 0, []⟩, ⟨4, [], 7, 0, []⟩] :
        List Marker) ≠ [] ∧
    (5 ∈ analyze_missing_numbers
        [⟨1, [], 1, 0, []⟩, ⟨2, [], 2, 0, []⟩, ⟨3, [], 4, 0, []⟩, ⟨4, [], 7, 0, []⟩] ↔
      (minOf ([⟨1, [], 1, 0, []⟩, ⟨2, [], 2, 0, []⟩, ⟨3, [], 4, 0, []⟩,
          ⟨4, [], 7, 0, []⟩].map (Marker.number ·)) ≤ 5 ∧
        5 ≤ maxOf ([⟨1, [], 1, 0, []⟩, ⟨2, [], 2, 0, []⟩, ⟨3, [], 4, 0, []⟩,
          ⟨4, [], 7, 0, []⟩].map (Marker.number ·)) ∧
        5 ∉ ([⟨1, [], 1, 0, []⟩, ⟨2, [], 2, 0, []⟩, ⟨3, [], 4, 0, []⟩,
          ⟨4, [], 7, 0, []⟩] : List Marker).map (Marker.number ·))) :=
  ⟨by decide,
    (c9_missing_numbers.1
      [⟨1, [], 1, 0, []⟩, ⟨2, [], 2, 0, []⟩, ⟨3, [], 4, 0, []⟩, ⟨4, [], 7, 0, []⟩]
      (by decide)).1 5⟩

/-! ### Chapter index configuration — `analyze_chapters.generate_config` -/

/-- One entry of the `chapters` array of `chapters_config.json`. -/
structure ConfigRec where
  number : Nat
  original : List Char
  ptype : Nat
  start_line : Nat
  end_line : Option Nat
deriving DecidableEq, Repr

/-- `generate_config`: `start_line` is the marker's line; `end_line` of record
    i is the next record's line − 1, or `None` for the last record. -/
def generate_config : List Marker → List ConfigRec
  | [] => []
  | [m] => [⟨m.number, m.original, m.ptype, m.line, none⟩]
  | m :: m2 :: rest =>
    ⟨m.number, m.original, m.ptype, m.line, some (m2.line - 1)⟩ ::
      generate_config (m2 :: rest)

/-! ### Chapter slicing — `extract_chapters.py` -/

/-- `extract_chapters.extract_chapter_content` over the `readlines()` list of
    the corpus (each line still carrying its newline character):
    `start_idx = max(0, start_line - 1)`; `end_idx` is the total line count
    when `end_line` is None, else `min(end_line - 1, total)`; an empty or
    inverted index range yields None; otherwise the half-open slice
    `lines[start_idx:end_idx]` is joined.  Natural-number subtraction agrees
    with the source's `max(0, ...)` clamping. -/
def extract_chapter_content (lines : List (List Char)) (startLine : Nat)
    (endLine : Option Nat) : Option (List Char) :=
  let total := lines.length
  let startIdx := startLine - 1
  let endIdx :=
    match endLine with
    | none => total
    | some e => min (e - 1) total
  if startIdx ≥ endIdx then none
  else some (joinAll ((lines.drop startIdx).take (endIdx - startIdx)))

/-- Inclusive line span [s, e] of the corpus, worded from the spec §4.5
    ("extract the inclusive line span [startLine, endLine]").  Declared only
    to compare the implementation against the spec's sentence. -/
def specInclusiveSpan (lines : List (List Char)) (s e : Nat) : List Char :=
  joinAll ((lines.drop (s - 1)).take (e - s + 1))

/-- C2: evaluation at the failing input.  With markers on lines 1 and 3 of a
    three-line corpus, `generate_config` gives record 1 the span [1, 2], but
    the slicer only returns line 1 — the line numbered `end_line` is dropped,
    and concatenating the two adjacent slices loses corpus line 2, contrary
    to the claimed inclusive-span extraction. -/
theorem c2_slice_off_by_one :
    generate_config [⟨1, chars "第1回", 1, 0, []⟩, ⟨3, chars "第2回", 2, 0, []⟩] =
      [⟨1, chars "第1回", 0, 1, some 2⟩, ⟨2, chars "第2回", 0, 3, none⟩] ∧
    extract_chapter_content [chars "a\n", chars "b\n", chars "c\n"] 1 (some 2) =
      some (chars "a\n") ∧
    specInclusiveSpan [chars "a\n", chars "b\n", chars "c\n"] 1 2 = chars "a\nb\n" ∧
    chars "a\n" ≠ chars "a\nb\n" ∧
    extract_chapter_content [chars "a\n", chars "b\n", chars "c\n"] 3 none =
      some (chars "c\n") ∧
    chars "a\n" ++ chars "c\n" ≠ joinAll [chars "a\n", chars "b\n", chars "c\n"] := by
  decide

/-! ### Batch slicing — `extract_chapters.extract_all_chapters` -/

/-- Pointwise update of the name-to-content map, modelling one file write. -/
def updateF (f : Nat → Option (List Char)) (k : Nat) (v : List Char) :
    Nat → Option (List Char) :=
  fun n => if n = k then some v else f n

/-- The placeholder text written for a chapter number absent from the
    configuration. -/
def slicePlaceholder (n : Nat) : List Char :=
  chars "本章节（第" ++ natChars n ++ chars "章）在原文档中缺失。\n"

/-- The extraction loop of `extract_all_chapters`: each record whose slice
    extraction succeeds with nonempty content writes `chapter_NN.txt` named
    after the record's number; duplicate numbers write the same file, so a
    later record overwrites an earlier one. -/
def extractPhase (corpus : List (List Char)) :
    List ConfigRec → (Nat → Option (List Char)) → (Nat → Option (List Char))
  | [], acc => acc
  | r :: rest, acc =>
    extractPhase corpus rest
      (match extract_chapter_content corpus r.start_line r.end_line with
       | some c => if c ≠ [] then updateF acc r.number c else acc
       | none => acc)

/-- The placeholder loop of `extract_all_chapters` over chapter numbers
    1..100: numbers absent from the configuration get a placeholder file. -/
def placeholderPhase (found : List Nat) :
    List Nat → (Nat → Option (List Char)) → (Nat → Option (List Char))
  | [], acc => acc
  | n :: rest, acc =>
    placeholderPhase found rest
      (if n ∈ found then acc else updateF acc n (slicePlaceholder n))

/-- `extract_chapters.extract_all_chapters` as the final mapping from chapter
    number to the content of `chapter_NN.txt` (None = no file written). -/
def extract_all_chapters (corpus : List (List Char)) (records : List ConfigRec) :
    Nat → Option (List Char) :=
  placeholderPhase (records.map (·.number)) (List.range' 1 100)
    (extractPhase corpus records (fun _ => none))

/-- The successfully extracted nonempty slices of the records numbered n, in
    record order. -/
def successSlices (corpus : List (List Char)) (records : List ConfigRec) (n : Nat) :
    List (List Char) :=
  records.filterMap (fun r =>
    if r.number = n then
      match extract_chapter_content corpus r.start_line r.end_line with
      | some c => if c ≠ [] then some c else none
      | none => none
    else none)

theorem extractPhase_eq (corpus : List (List Char)) :
    ∀ (records : List ConfigRec) (acc : Nat → Option (List Char)) (n : Nat),
      extractPhase corpus records acc n =
        match (successSlices corpus records n).getLast? with
        | some c => some c
        | none => acc n
  | [], acc, n => by simp [extractPhase, successSlices]
  | r :: rest, acc, n => by
    rw [extractPhase, extractPhase_eq corpus rest _ n]
    cases hex : extract_chapter_content corpus r.start_line r.end_line with
    | none =>
      have hsl : successSlices corpus (r :: rest) n = successSlices corpus rest n := by
        simp [successSlices, List.filterMap_cons, hex]
      rw [hsl]
    | some c =>
      dsimp only
      by_cases hc : c = []
      · subst hc
        have hsl : successSlices corpus (r :: rest) n = successSlices corpus rest n := by
          simp [successSlices, List.filterMap_cons, hex]
        rw [hsl, if_neg (fun h : ([] : List Char) ≠ [] => h rfl)]
      · rw [if_pos hc]
        by_cases hn : r.number = n
        · subst hn
          have hsl : successSlices corpus (r :: rest) r.number =
              c :: successSlices corpus rest r.number := by
            simp [successSlices, List.filterMap_cons, hex, hc]
          rw [hsl]
          cases hrest : successSlices corpus rest r.number with
          | nil => simp [updateF]
          | cons d ds =>
            rw [List.getLast?_cons_cons]
            cases hgl : (d :: ds).getLast? with
            | none => exact absurd (List.getLast?_eq_none_iff.mp hgl) (by simp)
            | some e => rfl
        · have hsl : successSlices corpus (r :: rest) n = successSlices corpus rest n := by
            simp [successSlices, List.filterMap_cons, hex, hn]
          rw [hsl]
          cases hrest : (successSlices corpus rest n).getLast? with
          | some e => rfl
          | none =>
            show updateF acc r.number c n = acc n
            rw [updateF, if_neg (fun h => hn h.symm)]

theorem placeholderPhase_eq (found : List Nat) :
    ∀ (nums : List Nat) (acc : Nat → Option (List Char)) (n : Nat),
      placeholderPhase found nums acc n =
        if n ∈ nums ∧ n ∉ found then some (slicePlaceholder n) else acc n
  | [], acc, n => by simp [placeholderPhase]
  | k :: rest, acc, n => by
    rw [placeholderPhase, placeholderPhase_eq found rest _ n]
    by_cases hr : n ∈ rest ∧ n ∉ found
    · rw [if_pos hr, if_pos ⟨List.mem_cons_of_mem k hr.1, hr.2⟩]
    · rw [if_neg hr]
      by_cases hk : n = k ∧ n ∉ found
      · rcases hk with ⟨hk1, hk2⟩
        subst hk1
        rw [if_neg hk2, if_pos ⟨List.mem_cons_self n rest, hk2⟩, updateF, if_pos rfl]
      · have hcond : ¬(n ∈ k :: rest ∧ n ∉ found) := by
          intro hc
          rcases List.mem_cons.mp hc.1 with h | h
          · exact hk ⟨h, hc.2⟩
          · exact hr ⟨h, hc.2⟩
        rw [if_neg hcond]
        by_cases hkf : k ∈ found
        · rw [if_pos hkf]
        · have hnk : ¬ n = k := fun he =>
            hcond ⟨he ▸ List.mem_cons_self k rest, he ▸ hkf⟩
          rw [if_neg hkf, updateF, if_neg hnk]

/-- C4 counterexample: with two records numbered 5 (spans [1, 2] and
    [3, end]), the slicing stage's final per-chapter output for 5 is the slice
    of the second (last) record, not of the first — the claimed first-wins
    policy does not hold. -/
theorem c4_counterexample :
    extract_all_chapters [chars "a\n", chars "b\n", chars "c\n"]
      [⟨5, [], 0, 1, some 2⟩, ⟨5, [], 0, 3, none⟩] 5 = some (chars "c\n") ∧
    extract_chapter_content [chars "a\n", chars "b\n", chars "c\n"] 1 (some 2) =
      some (chars "a\n") ∧
    chars "c\n" ≠ chars "a\n" := by decide

/-- C4 (amended): for every chapter number, the slicing stage's final output
    is the slice of the last record with that number whose extraction
    succeeds with nonempty content (later duplicates overwrite earlier ones);
    if no record for the number yields content, a placeholder is produced
    exactly when the number is in 1..100 and no record carries it at all. -/
theorem c4_duplicate_last_wins (corpus : List (List Char))
    (records : List ConfigRec) (n : Nat) :
    extract_all_chapters corpus records n =
      match (successSlices corpus records n).getLast? with
      | some c => some c
      | none =>
        if n ∈ records.map (·.number) ∨ ¬(1 ≤ n ∧ n ≤ 100) then none
        else some (slicePlaceholder n) := by
  rw [extract_all_chapters, placeholderPhase_eq, extractPhase_eq]
  have hrange : n ∈ List.range' 1 100 ↔ 1 ≤ n ∧ n ≤ 100 := by
    rw [List.mem_range'_1]
    omega
  cases hsl : (successSlices corpus records n).getLast? with
  | some c =>
    have hmem : n ∈ records.map (·.number) := by
      rcases List.getLast?_eq_some_iff.mp hsl with ⟨ys, hys⟩
      have hc : c ∈ successSlices corpus records n := by
        rw [hys]; exact List.mem_append_right ys (List.mem_singleton.mpr rfl)
      rcases List.mem_filterMap.mp hc with ⟨r, hr, hopt⟩
      have hrn : r.number = n := by
        by_contra hne
        rw [if_neg hne] at hopt
        exact absurd hopt (by simp)
      exact List.mem_map.mpr ⟨r, hr, hrn⟩
    rw [if_neg (fun hc => hc.2 hmem)]
  | none =>
    by_cases hmem : n ∈ records.map (·.number)
    · rw [if_neg (fun hc => hc.2 hmem), if_pos (Or.inl hmem)]
    · by_cases hr : 1 ≤ n ∧ n ≤ 100
      · rw [if_pos ⟨hrange.mpr hr, hmem⟩,
          if_neg (by rintro (h | h); exact hmem h; exact h hr)]
      · rw [if_neg (fun hc => hr (hrange.mp hc.1)), if_pos (Or.inr hr)]

/-! ### Text normalizer — `clean_text.py`

Each regular-expression rewrite of `clean_text` becomes one scanner.  The
scanners that skip over a matched span use an explicit fuel argument equal to
the input length (every step consumes at least one character, so the fuel
never runs out on the initial call); on fuel 0 the remaining input is
returned unchanged. -/

/-- The class `[ \t]`. -/
def isST (c : Char) : Bool := c = ' ' || c = '\t'

/-- Matches 第\d+回 at the head of the input (greedy digits), returning the
    matched text and the rest. -/
def markerPrefixD (s : List Char) : Option (List Char × List Char) :=
  match s with
  | c :: cs =>
    if c = '第' then
      let ds := cs.takeWhile isDigitCh
      if ds ≠ [] ∧ (cs.drop ds.length).head? = some '回' then
        some ('第' :: ds ++ ['回'], cs.drop (ds.length + 1))
      else none
    else none
  | [] => none

/-- The `最后登录:\d+` part of rule 1, searched lazily: the earliest
    occurrence followed by at least one digit; returns the rest after the
    greedy digit run. -/
def huntLogin : List Char → Option (List Char)
  | [] => none
  | c :: cs =>
    if (chars "最后登录:").isPrefixOf (c :: cs) then
      let after := (c :: cs).drop 5
      let ds := after.takeWhile isDigitCh
      if ds ≠ [] then some (after.drop ds.length) else huntLogin cs
    else huntLogin cs

/-- The lazy `.*?(?=第\d+回|$)` tail of rule 1 (`$` without MULTILINE matches
    at the end of the string or just before a final newline): returns the
    suffix starting at the first qualifying stop position. -/
def stopAtMarkerOrEnd : List Char → List Char
  | [] => []
  | c :: cs =>
    if (markerPrefixD (c :: cs)).isSome then c :: cs
    else if cs = [] ∧ c = '\n' then c :: cs
    else stopAtMarkerOrEnd cs

/-- Rule 1 of `clean_text`: `re.sub(r'级别:.*?最后登录:\d+.*?(?=第\d+回|$)',
    '', content, flags=re.DOTALL)`. -/
def sub_userinfo_go : Nat → List Char → List Char
  | 0, s => s
  | _ + 1, [] => []
  | fuel + 1, c :: cs =>
    if (chars "级别:").isPrefixOf (c :: cs) then
      match huntLogin ((c :: cs).drop 3) with
      | some r => sub_userinfo_go fuel (stopAtMarkerOrEnd r)
      | none => c :: sub_userinfo_go fuel cs
    else c :: sub_userinfo_go fuel cs

def sub_userinfo (s : List Char) : List Char := sub_userinfo_go s.length s

/-- Matches `\d{4}-\d{2}-\d{2}` at the head, returning the rest. -/
def datePrefix (s : List Char) : Option (List Char) :=
  match s with
  | a :: b :: c :: d :: '-' :: e :: f :: '-' :: g :: h :: rest =>
    if isDigitCh a && isDigitCh b && isDigitCh c && isDigitCh d &&
       isDigitCh e && isDigitCh f && isDigitCh g && isDigitCh h then some rest
    else none
  | _ => none

/-- The lazy `.*?\n` tail: everything up to and including the first newline
    (no match when no newline follows). -/
def toNextNl : List Char → Option (List Char)
  | [] => none
  | c :: cs => if c = '\n' then some cs else toNextNl cs

/-- Rule 2 of `clean_text`: `re.sub(r'Posted:\s*\d{4}-\d{2}-\d{2}.*?\n', '',
    content)`. -/
def sub_posted_go : Nat → List Char → List Char
  | 0, s => s
  | _ + 1, [] => []
  | fuel + 1, c :: cs =>
    if (chars "Posted:").isPrefixOf (c :: cs) then
      match datePrefix (((c :: cs).drop 7).dropWhile pyWS) with
      | some r =>
        match toNextNl r with
        | some rest => sub_posted_go fuel rest
        | none => c :: sub_posted_go fuel cs
      | none => c :: sub_posted_go fuel cs
    else c :: sub_posted_go fuel cs

def sub_posted (s : List Char) : List Char := sub_posted_go s.length s

/-- Matches `\[\d+\s+楼\]\s*` at the head, returning the rest (after the
    greedy trailing whitespace). -/
def floorAt (s : List Char) : Option (List Char) :=
  match s with
  | c :: cs =>
    if c = '[' then
      let ds := cs.takeWhile isDigitCh
      if ds = [] then none
      else
        let afterDs := cs.drop ds.length
        let ws := afterDs.takeWhile pyWS
        if ws = [] then none
        else
          let tl := afterDs.drop ws.length
          if tl.head? = some '楼' ∧ tl.tail.head? = some ']' then
            some (tl.tail.tail.dropWhile pyWS)
          else none
    else none
  | [] => none

/-- Rule 3 of `clean_text`: `re.sub(r'\[\d+\s+楼\]\s*', '', content)`. -/
def sub_floor_go : Nat → List Char → List Char
  | 0, s => s
  | _ + 1, [] => []
  | fuel + 1, c :: cs =>
    match floorAt (c :: cs) with
    | some rest => sub_floor_go fuel rest
    | none => c :: sub_floor_go fuel cs

def sub_floor (s : List Char) : List Char := sub_floor_go s.length s

/-- Earliest position where a run of three or more newlines starts; consumes
    the maximal run (the greedy closing `\n{3,}` of rule 4). -/
def nlRunHunt : List Char → Option (List Char)
  | [] => none
  | c :: cs =>
    if c = '\n' then
      if (cs.takeWhile (· = '\n')).length + 1 ≥ 3 then
        some (cs.drop (cs.takeWhile (· = '\n')).length)
      else nlRunHunt cs
    else nlRunHunt cs

/-- The lazy `.*?级别:.*?\n{3,}` tail of rule 4: the earliest 级别: after
    which a run of three or more newlines occurs. -/
def sigHunt : List Char → Option (List Char)
  | [] => none
  | c :: cs =>
    if (chars "级别:").isPrefixOf (c :: cs) then
      match nlRunHunt ((c :: cs).drop 3) with
      | some r => some r
      | none => sigHunt cs
    else sigHunt cs

/-- Rule 4 of `clean_text`: `re.sub(r'\n{3,}.*?级别:.*?\n{3,}', '\n\n',
    content, flags=re.DOTALL)`. -/
def sub_signature_go : Nat → List Char → List Char
  | 0, s => s
  | _ + 1, [] => []
  | fuel + 1, c :: cs =>
    if c = '\n' ∧ (cs.takeWhile (· = '\n')).length + 1 ≥ 3 then
      match sigHunt (cs.drop (cs.takeWhile (· = '\n')).length) with
      | some rest => '\n' :: '\n' :: sub_signature_go fuel rest
      | none => c :: sub_signature_go fuel cs
    else c :: sub_signature_go fuel cs

def sub_signature (s : List Char) : List Char := sub_signature_go s.length s

/-- `content.replace('\r\n', '\n')` (left-to-right, non-overlapping).  The two
    pattern characters differ, so matches cannot overlap, and the replacement
    equals deleting every carriage return immediately followed by a newline. -/
def replCRLF : List Char → List Char
  | [] => []
  | c :: cs => if c = '\r' ∧ cs.head? = some '\n' then replCRLF cs else c :: replCRLF cs

/-- `content.replace('\r', '\n')`. -/
def replCR : List Char → List Char
  | [] => []
  | c :: cs => (if c = '\r' then '\n' else c) :: replCR cs

/-- `re.sub(r'[ \t]+$', '', content, flags=re.MULTILINE)`: drop every maximal
    space/tab run that sits immediately before a newline or at the end. -/
def rstripEOL : List Char → List Char
  | [] => []
  | c :: cs =>
    if isST c then
      match rstripEOL cs with
      | [] => []
      | d :: ds => if d = '\n' then d :: ds else c :: d :: ds
    else c :: rstripEOL cs

/-- Newline-run collapsing state machine: `k` pending newlines already seen. -/
def collapseGo : Nat → List Char → List Char
  | k, [] => List.replicate (min k 3) '\n'
  | k, c :: cs =>
    if c = '\n' then collapseGo (k + 1) cs
    else List.replicate (min k 3) '\n' ++ c :: collapseGo 0 cs

/-- `re.sub(r'\n{4,}', '\n\n\n', content)`. -/
def collapseNl4 (s : List Char) : List Char := collapseGo 0 s

/-- The control-character class `[\x00-\x08\x0B-\x0C\x0E-\x1F\x7F]`. -/
def isCtrlCh (c : Char) : Bool :=
  c.toNat ≤ 0x08 || c.toNat = 0x0b || c.toNat = 0x0c ||
  (0x0e ≤ c.toNat && c.toNat ≤ 0x1f) || c.toNat = 0x7f

/-- `re.sub(r'[\x00-\x08\x0B-\x0C\x0E-\x1F\x7F]', '', content)`. -/
def stripCtrl (s : List Char) : List Char := s.filter (fun c => !isCtrlCh c)

/-- Rule of step 4a: `re.sub(r'([^\n])\n(第\d+回)', r'\1\n\n\2', content)`;
    scanning resumes after the matched marker. -/
def sub_marker_blank_go : Nat → List Char → List Char
  | 0, s => s
  | _ + 1, [] => []
  | fuel + 1, c :: cs =>
    if c ≠ '\n' ∧ cs.head? = some '\n' then
      match markerPrefixD cs.tail with
      | some (mk, rest) => c :: '\n' :: '\n' :: mk ++ sub_marker_blank_go fuel rest
      | none => c :: sub_marker_blank_go fuel cs
    else c :: sub_marker_blank_go fuel cs

def sub_marker_blank (s : List Char) : List Char := sub_marker_blank_go s.length s

/-- Backtracking of the `\s+[^\n]` tail of step 4b: the greedy whitespace run
    is shortened until the following character exists and is not a newline;
    the result is the number of whitespace characters kept (≥ 1). -/
def breakFind (rest : List Char) : Nat → Option Nat
  | 0 => none
  | r + 1 =>
    if r + 1 < rest.length ∧ rest.getD (r + 1) ' ' ≠ '\n' then some (r + 1)
    else breakFind rest r

/-- Rule of step 4b: `re.sub(r'(第\d+回\s+)([^\n])', r'\1\n\2', content)`;
    scanning resumes after the `[^\n]` character. -/
def sub_marker_break_go : Nat → List Char → List Char
  | 0, s => s
  | _ + 1, [] => []
  | fuel + 1, c :: cs =>
    match markerPrefixD (c :: cs) with
    | some (mk, rest) =>
      match breakFind rest (rest.takeWhile pyWS).length with
      | some r =>
        mk ++ rest.take r ++ '\n' :: rest.getD r ' ' ::
          sub_marker_break_go fuel (rest.drop (r + 1))
      | none => mk ++ sub_marker_break_go fuel rest
    | none => c :: sub_marker_break_go fuel cs

def sub_marker_break (s : List Char) : List Char := sub_marker_break_go s.length s

/-- `clean_text.clean_text` minus the file input/output: the rewrites in
    source order, ending with `content.strip() + '\n'`. -/
def clean_text (s : List Char) : List Char :=
  let s1 := sub_userinfo s
  let s2 := sub_posted s1
  let s3 := sub_floor s2
  let s4 := sub_signature s3
  let s5 := replCR (replCRLF s4)
  let s6 := rstripEOL s5
  let s7 := collapseNl4 s6
  let s8 := stripCtrl s7
  let s9 := sub_marker_blank s8
  let s10 := sub_marker_break s9
  pyStrip s10 ++ ['\n']

example : clean_text (chars "第1回\na") = chars "第1回\n\na\n" := by decide
example : clean_text (chars "a \r\n\n\n\n\nb\tx ") = chars "a\n\n\nb\tx\n" := by decide
example : sub_floor (chars "x[12 楼] y") = chars "xy" := by decide
example : sub_posted (chars "aPosted: 2021-01-03 zz\nb") = chars "ab" := by decide
example :
    sub_userinfo (chars "x级别:aa最后登录:123zzz第3回y") = chars "x第3回y" := by decide

/-- C3 counterexample: the normalizer is not idempotent.  On 第1回\na a first
    pass inserts one newline after the marker (the 4b rule), and a second pass
    inserts another, because the `\s+` of the rule matches the newline the
    first pass inserted. -/
theorem c3_counterexample :
    clean_text (clean_text (chars "第1回\na")) ≠ clean_text (chars "第1回\na") := by
  decide

/-! ### Idempotence of the normalizer away from the rewrite triggers (C3)

Strings that contain none of the characters 第, 级, P, 楼 (each required by
one of the pattern rules) and no control characters are untouched by the
pattern rules, and on them the remaining whitespace pipeline is idempotent. -/

/-- Input class for the amended idempotence claim: none of the rewrite-trigger
    characters and no control characters. -/
def cleanSafe (s : List Char) : Bool :=
  s.all (fun c => !(c = '第' || c = '级' || c = 'P' || c = '楼' || isCtrlCh c))

theorem isPrefixOf_head {t : List Char} {c d : Char} {cs : List Char}
    (h : List.isPrefixOf (d :: t) (c :: cs) = true) : c = d := by
  simp only [List.isPrefixOf, Bool.and_eq_true, beq_iff_eq] at h
  exact h.1.symm

theorem sub_userinfo_go_id :
    ∀ (s : List Char) (fuel : Nat), (∀ c ∈ s, c ≠ '级') → sub_userinfo_go fuel s = s
  | _, 0, _ => rfl
  | [], _ + 1, _ => rfl
  | c :: cs, fuel + 1, h => by
    have hc : ¬ (chars "级别:").isPrefixOf (c :: cs) = true := fun hp =>
      h c (List.mem_cons_self c cs) (isPrefixOf_head hp)
    simp only [sub_userinfo_go, if_neg hc]
    rw [sub_userinfo_go_id cs fuel (fun d hd => h d (List.mem_cons_of_mem c hd))]

theorem sub_userinfo_id {s : List Char} (h : ∀ c ∈ s, c ≠ '级') :
    sub_userinfo s = s := sub_userinfo_go_id s s.length h

theorem sub_posted_go_id :
    ∀ (s : List Char) (fuel : Nat), (∀ c ∈ s, c ≠ 'P') → sub_posted_go fuel s = s
  | _, 0, _ => rfl
  | [], _ + 1, _ => rfl
  | c :: cs, fuel + 1, h => by
    have hc : ¬ (chars "Posted:").isPrefixOf (c :: cs) = true := fun hp =>
      h c (List.mem_cons_self c cs) (isPrefixOf_head hp)
    simp only [sub_posted_go, if_neg hc]
    rw [sub_posted_go_id cs fuel (fun d hd => h d (List.mem_cons_of_mem c hd))]

theorem sub_posted_id {s : List Char} (h : ∀ c ∈ s, c ≠ 'P') :
    sub_posted s = s := sub_posted_go_id s s.length h

theorem floorAt_mem {s r : List Char} (h : floorAt s = some r) : '楼' ∈ s := by
  cases s with
  | nil => simp [floorAt] at h
  | cons c cs =>
    simp only [floorAt] at h
    split at h
    · split at h
      · exact absurd h (by simp)
      · split at h
        · exact absurd h (by simp)
        · split at h
          · next hl =>
            have hmem : '楼' ∈ ((cs.drop (cs.takeWhile isDigitCh).length).drop
                ((cs.drop (cs.takeWhile isDigitCh).length).takeWhile pyWS).length) :=
              List.mem_of_mem_head? (Option.mem_def.mpr hl.1)
            exact List.mem_cons_of_mem c
              (List.mem_of_mem_drop (List.mem_of_mem_drop hmem))
          · exact absurd h (by simp)
    · exact absurd h (by simp)

theorem sub_floor_go_id :
    ∀ (s : List Char) (fuel : Nat), (∀ c ∈ s, c ≠ '楼') → sub_floor_go fuel s = s
  | _, 0, _ => rfl
  | [], _ + 1, _ => rfl
  | c :: cs, fuel + 1, h => by
    have hfl : floorAt (c :: cs) = none := by
      cases hf : floorAt (c :: cs) with
      | none => rfl
      | some r => exact absurd rfl (h '楼' (floorAt_mem hf))
    simp only [sub_floor_go, hfl]
    rw [sub_floor_go_id cs fuel (fun d hd => h d (List.mem_cons_of_mem c hd))]

theorem sub_floor_id {s : List Char} (h : ∀ c ∈ s, c ≠ '楼') :
    sub_floor s = s := sub_floor_go_id s s.length h

theorem sigHunt_none :
    ∀ (s : List Char), (∀ c ∈ s, c ≠ '级') → sigHunt s = none
  | [], _ => rfl
  | c :: cs, h => by
    have hc : ¬ (chars "级别:").isPrefixOf (c :: cs) = true := fun hp =>
      h c (List.mem_cons_self c cs) (isPrefixOf_head hp)
    simp only [sigHunt, if_neg hc]
    exact sigHunt_none cs (fun d hd => h d (List.mem_cons_of_mem c hd))

theorem sub_signature_go_id :
    ∀ (s : List Char) (fuel : Nat), (∀ c ∈ s, c ≠ '级') → sub_signature_go fuel s = s
  | _, 0, _ => rfl
  | [], _ + 1, _ => rfl
  | c :: cs, fuel + 1, h => by
    have htail : ∀ c ∈ cs, c ≠ '级' := fun d hd => h d (List.mem_cons_of_mem c hd)
    have hrec : sub_signature_go fuel cs = cs := sub_signature_go_id cs fuel htail
    by_cases hcond : c = '\n' ∧ (cs.takeWhile (· = '\n')).length + 1 ≥ 3
    · have hhunt : sigHunt (cs.drop (cs.takeWhile (· = '\n')).length) = none :=
        sigHunt_none _ (fun d hd => htail d (List.mem_of_mem_drop hd))
      simp only [sub_signature_go, if_pos hcond, hhunt, hrec]
    · simp only [sub_signature_go, if_neg hcond, hrec]

theorem sub_signature_id {s : List Char} (h : ∀ c ∈ s, c ≠ '级') :
    sub_signature s = s := sub_signature_go_id s s.length h

theorem markerPrefixD_head {s : List Char} {p : List Char × List Char}
    (h : markerPrefixD s = some p) : s.head? = some '第' := by
  cases s with
  | nil => simp [markerPrefixD] at h
  | cons c cs =>
    simp only [markerPrefixD] at h
    split at h
    · next hc => rw [hc]; rfl
    · exact absurd h (by simp)

theorem markerPrefixD_none_of_no {s : List Char} (h : ∀ c ∈ s, c ≠ '第') :
    markerPrefixD s = none := by
  cases hm : markerPrefixD s with
  | none => rfl
  | some p =>
    have hh := markerPrefixD_head hm
    cases s with
    | nil => exact absurd hh (by simp)
    | cons e es =>
      have he : e = '第' := by simpa using hh
      exact absurd rfl (he ▸ h e (by simp))

theorem sub_marker_blank_go_id :
    ∀ (s : List Char) (fuel : Nat), (∀ c ∈ s, c ≠ '第') → sub_marker_blank_go fuel s = s
  | _, 0, _ => rfl
  | [], _ + 1, _ => rfl
  | c :: cs, fuel + 1, h => by
    have htail : ∀ d ∈ cs, d ≠ '第' := fun d hd => h d (List.mem_cons_of_mem c hd)
    have hrec : sub_marker_blank_go fuel cs = cs := sub_marker_blank_go_id cs fuel htail
    have hmk : markerPrefixD cs.tail = none :=
      markerPrefixD_none_of_no (fun d hd => htail d (List.mem_of_mem_tail hd))
    by_cases hc : c ≠ '\n' ∧ cs.head? = some '\n'
    · simp only [sub_marker_blank_go, if_pos hc, hmk, hrec]
    · simp only [sub_marker_blank_go, if_neg hc, hrec]

theorem sub_marker_blank_id {s : List Char} (h : ∀ c ∈ s, c ≠ '第') :
    sub_marker_blank s = s := sub_marker_blank_go_id s s.length h

theorem sub_marker_break_go_id :
    ∀ (s : List Char) (fuel : Nat), (∀ c ∈ s, c ≠ '第') → sub_marker_break_go fuel s = s
  | _, 0, _ => rfl
  | [], _ + 1, _ => rfl
  | c :: cs, fuel + 1, h => by
    have hmk : markerPrefixD (c :: cs) = none := markerPrefixD_none_of_no h
    simp only [sub_marker_break_go, hmk]
    rw [sub_marker_break_go_id cs fuel (fun d hd => h d (List.mem_cons_of_mem c hd))]

theorem sub_marker_break_id {s : List Char} (h : ∀ c ∈ s, c ≠ '第') :
    sub_marker_break s = s := sub_marker_break_go_id s s.length h

/-- Pair predicate: no space/tab immediately followed by a newline. -/
def okP : List Char → Bool
  | c :: d :: r => !(isST c && d = '\n') && okP (d :: r)
  | _ => true

/-- End predicate: the last character is not a space/tab. -/
def okE (s : List Char) : Bool :=
  match s.getLast? with
  | some c => !(isST c)
  | none => true

/-- Run counter: with k newlines just seen, no newline run reaches four. -/
def ok4Aux : Nat → List Char → Bool
  | _, [] => true
  | k, c :: cs =>
    if c = '\n' then decide (k + 1 ≤ 3) && ok4Aux (k + 1) cs else ok4Aux 0 cs

def ok4 (s : List Char) : Bool := ok4Aux 0 s

theorem okP_tail {c : Char} {t : List Char} (h : okP (c :: t) = true) : okP t = true := by
  cases t with
  | nil => rfl
  | cons d ds =>
    have h' : (!(isST c && d = '\n') && okP (d :: ds)) = true := h
    exact (Bool.and_eq_true _ _ ▸ h').2

theorem okP_head {c : Char} {t : List Char} (h : okP (c :: t) = true)
    (hh : t.head? = some '\n') : isST c = false := by
  cases t with
  | nil => simp at hh
  | cons d ds =>
    have hd : d = '\n' := by simpa using hh
    have h' : (!(isST c && d = '\n') && okP (d :: ds)) = true := h
    have h1 := (Bool.and_eq_true _ _ ▸ h').1
    subst hd
    simpa using h1

theorem okP_cons_of {c : Char} {t : List Char} (h : okP t = true)
    (hh : t.head? = some '\n' → isST c = false) : okP (c :: t) = true := by
  cases t with
  | nil => rfl
  | cons d ds =>
    rw [show okP (c :: d :: ds) = (!(isST c && d = '\n') && okP (d :: ds)) from rfl]
    rw [h, Bool.and_true]
    by_cases hd : d = '\n'
    · rw [hh (by rw [hd]; rfl), hd]
      rfl
    · simp [hd]

theorem rstripEOL_of_ok :
    ∀ s : List Char, okP s = true → okE s = true → rstripEOL s = s
  | [], _, _ => rfl
  | c :: cs, hp, he => by
    by_cases hst : isST c
    · cases cs with
      | nil =>
        exfalso
        rw [show okE [c] = !(isST c) from rfl, hst] at he
        exact absurd he (by simp)
      | cons d ds =>
        have hd : d ≠ '\n' := by
          intro hd
          have := okP_head hp (by rw [hd]; rfl)
          rw [this] at hst
          exact absurd hst (by simp)
        have hrec : rstripEOL (d :: ds) = d :: ds :=
          rstripEOL_of_ok (d :: ds) (okP_tail hp)
            (by rwa [show okE (c :: d :: ds) = okE (d :: ds) by
                  simp [okE, List.getLast?_cons_cons]] at he)
        rw [show rstripEOL (c :: d :: ds) =
              (if isST c then
                match rstripEOL (d :: ds) with
                | [] => []
                | e :: es => if e = '\n' then e :: es else c :: e :: es
              else c :: rstripEOL (d :: ds)) from rfl]
        rw [if_pos hst, hrec]
        simp [hd]
    · have hrec : rstripEOL cs = cs := by
        cases cs with
        | nil => rfl
        | cons d ds =>
          exact rstripEOL_of_ok (d :: ds) (okP_tail hp)
            (by rwa [show okE (c :: d :: ds) = okE (d :: ds) by
                  simp [okE, List.getLast?_cons_cons]] at he)
      rw [show rstripEOL (c :: cs) =
            (if isST c then
              match rstripEOL cs with
              | [] => []
              | e :: es => if e = '\n' then e :: es else c :: e :: es
            else c :: rstripEOL cs) from rfl]
      rw [if_neg hst, hrec]

theorem okP_okE_rstripEOL :
    ∀ s : List Char, okP (rstripEOL s) = true ∧ okE (rstripEOL s) = true
  | [] => ⟨rfl, rfl⟩
  | c :: cs => by
    obtain ⟨ihp, ihe⟩ := okP_okE_rstripEOL cs
    rw [show rstripEOL (c :: cs) =
          (if isST c then
            match rstripEOL cs with
            | [] => []
            | e :: es => if e = '\n' then e :: es else c :: e :: es
          else c :: rstripEOL cs) from rfl]
    by_cases hst : isST c
    · rw [if_pos hst]
      cases hr : rstripEOL cs with
      | nil => exact ⟨rfl, rfl⟩
      | cons e es =>
        rw [hr] at ihp ihe
        dsimp only
        by_cases he : e = '\n'
        · rw [if_pos he]
          exact ⟨ihp, ihe⟩
        · rw [if_neg he]
          refine ⟨okP_cons_of ihp ?_, ?_⟩
          · intro hh
            exact absurd (by simpa using hh) he
          · rwa [show okE (c :: e :: es) = okE (e :: es) by
              simp [okE, List.getLast?_cons_cons]]
    · rw [if_neg hst]
      cases hr : rstripEOL cs with
      | nil =>
        refine ⟨rfl, ?_⟩
        rw [show okE [c] = !(isST c) from rfl]
        simp [hst]
      | cons e es =>
        rw [hr] at ihp ihe
        refine ⟨okP_cons_of ihp (fun _ => by simpa using hst), ?_⟩
        rwa [show okE (c :: e :: es) = okE (e :: es) by
          simp [okE, List.getLast?_cons_cons]]

theorem replicate_append_cons (a : Char) :
    ∀ (k : Nat) (l : List Char),
      List.replicate k a ++ a :: l = List.replicate (k + 1) a ++ l
  | 0, l => rfl
  | k + 1, l => by
    rw [List.replicate_succ, List.cons_append, replicate_append_cons a k l,
      List.replicate_succ a (k + 1), List.cons_append]

theorem collapse_of_ok4 :
    ∀ (s : List Char) (k : Nat), k ≤ 3 → ok4Aux k s = true →
      collapseGo k s = List.replicate k '\n' ++ s
  | [], k, hk, _ => by
    rw [show collapseGo k [] = List.replicate (min k 3) '\n' from rfl,
      Nat.min_eq_left hk, List.append_nil]
  | c :: cs, k, hk, h4 => by
    by_cases hc : c = '\n'
    · subst hc
      rw [show collapseGo k ('\n' :: cs) = collapseGo (k + 1) cs from by
        simp [collapseGo]]
      simp only [ok4Aux, eq_self_iff_true, if_true, Bool.and_eq_true, decide_eq_true_eq] at h4
      rw [collapse_of_ok4 cs (k + 1) h4.1 h4.2]
      rw [← replicate_append_cons]
    · rw [show collapseGo k (c :: cs) =
          List.replicate (min k 3) '\n' ++ c :: collapseGo 0 cs from by
        simp [collapseGo, hc]]
      simp only [ok4Aux, if_neg hc] at h4
      rw [collapse_of_ok4 cs 0 (by omega) h4, Nat.min_eq_left hk]
      simp

theorem ok4Aux_mono : ∀ (s : List Char) (i j : Nat), i ≤ j →
    ok4Aux j s = true → ok4Aux i s = true
  | [], _, _, _, _ => rfl
  | c :: cs, i, j, hij, h => by
    by_cases hc : c = '\n'
    · subst hc
      simp only [ok4Aux, eq_self_iff_true, if_true, Bool.and_eq_true, decide_eq_true_eq] at h ⊢
      exact ⟨by omega, ok4Aux_mono cs (i + 1) (j + 1) (by omega) h.2⟩
    · simp only [ok4Aux, if_neg hc] at h ⊢
      exact h

theorem ok4Aux_append_right : ∀ (l r : List Char) (j : Nat),
    ok4Aux j (l ++ r) = true → ok4 r = true
  | [], r, j, h => ok4Aux_mono r 0 j (Nat.zero_le j) h
  | c :: l, r, j, h => by
    by_cases hc : c = '\n'
    · subst hc
      simp only [List.cons_append, ok4Aux, eq_self_iff_true, if_true, Bool.and_eq_true,
        decide_eq_true_eq] at h
      exact ok4Aux_append_right l r (j + 1) h.2
    · simp only [List.cons_append, ok4Aux, if_neg hc] at h
      exact ok4Aux_append_right l r 0 h

theorem ok4Aux_append_left : ∀ (l r : List Char) (j : Nat),
    ok4Aux j (l ++ r) = true → ok4Aux j l = true
  | [], _, _, _ => rfl
  | c :: l, r, j, h => by
    by_cases hc : c = '\n'
    · subst hc
      simp only [List.cons_append, ok4Aux, eq_self_iff_true, if_true, Bool.and_eq_true,
        decide_eq_true_eq] at h ⊢
      exact ⟨h.1, ok4Aux_append_left l r (j + 1) h.2⟩
    · simp only [List.cons_append, ok4Aux, if_neg hc] at h ⊢
      exact ok4Aux_append_left l r 0 h

theorem ok4_append_nl : ∀ (y : List Char) (j : Nat), y ≠ [] → ok4Aux j y = true →
    y.getLast? ≠ some '\n' → ok4Aux j (y ++ ['\n']) = true
  | [], _, hne, _, _ => absurd rfl hne
  | [c], j, _, _, hl => by
    have hc : c ≠ '\n' := fun he => hl (by rw [he]; rfl)
    simp [ok4Aux, hc]
  | c :: d :: y', j, _, h4, hl => by
    have hl' : (d :: y').getLast? ≠ some '\n' := by
      rwa [List.getLast?_cons_cons] at hl
    by_cases hc : c = '\n'
    · subst hc
      simp only [List.cons_append, ok4Aux, eq_self_iff_true, if_true, Bool.and_eq_true,
        decide_eq_true_eq] at h4 ⊢
      exact ⟨h4.1, ok4_append_nl (d :: y') (j + 1) (by simp) h4.2 hl'⟩
    · simp only [List.cons_append, ok4Aux, if_neg hc] at h4 ⊢
      exact ok4_append_nl (d :: y') 0 (by simp) h4 hl'

theorem ok4Aux_replicate : ∀ (m j : Nat), j + m ≤ 3 →
    ok4Aux j (List.replicate m '\n') = true
  | 0, _, _ => rfl
  | m + 1, j, h => by
    rw [List.replicate_succ]
    simp only [ok4Aux, eq_self_iff_true, if_true, Bool.and_eq_true, decide_eq_true_eq]
    exact ⟨by omega, ok4Aux_replicate m (j + 1) (by omega)⟩

theorem ok4Aux_replicate_append : ∀ (m j : Nat) (c : Char) (t : List Char),
    j + m ≤ 3 → c ≠ '\n' → ok4 t = true →
    ok4Aux j (List.replicate m '\n' ++ c :: t) = true
  | 0, j, c, t, _, hc, ht => by
    simp only [List.replicate_zero, List.nil_append, ok4Aux, if_neg hc]
    exact ht
  | m + 1, j, c, t, h, hc, ht => by
    rw [List.replicate_succ, List.cons_append]
    simp only [ok4Aux, eq_self_iff_true, if_true, Bool.and_eq_true, decide_eq_true_eq]
    exact ⟨by omega, ok4Aux_replicate_append m (j + 1) c t (by omega) hc ht⟩

theorem ok4_collapseGo : ∀ (s : List Char) (k : Nat), ok4 (collapseGo k s) = true
  | [], k => by
    rw [show collapseGo k [] = List.replicate (min k 3) '\n' from rfl]
    exact ok4Aux_replicate (min k 3) 0 (by simp)
  | c :: cs, k => by
    by_cases hc : c = '\n'
    · subst hc
      rw [show collapseGo k ('\n' :: cs) = collapseGo (k + 1) cs from by
        simp [collapseGo]]
      exact ok4_collapseGo cs (k + 1)
    · rw [show collapseGo k (c :: cs) =
          List.replicate (min k 3) '\n' ++ c :: collapseGo 0 cs from by
        simp [collapseGo, hc]]
      exact ok4Aux_replicate_append (min k 3) 0 c _
        (by simp) hc (ok4_collapseGo cs 0)

theorem head?_collapseGo_pos : ∀ (s : List Char) (k : Nat), 1 ≤ k →
    (collapseGo k s).head? = some '\n'
  | [], k, hk => by
    rw [show collapseGo k [] = List.replicate (min k 3) '\n' from rfl]
    have h1 : 1 ≤ min k 3 := Nat.le_min.mpr ⟨hk, by omega⟩
    cases hm : min k 3 with
    | zero => omega
    | succ m => rw [List.replicate_succ]; rfl
  | c :: cs, k, hk => by
    by_cases hc : c = '\n'
    · subst hc
      rw [show collapseGo k ('\n' :: cs) = collapseGo (k + 1) cs from by
        simp [collapseGo]]
      exact head?_collapseGo_pos cs (k + 1) (by omega)
    · rw [show collapseGo k (c :: cs) =
          List.replicate (min k 3) '\n' ++ c :: collapseGo 0 cs from by
        simp [collapseGo, hc]]
      have h1 : 1 ≤ min k 3 := Nat.le_min.mpr ⟨hk, by omega⟩
      cases hm : min k 3 with
      | zero => omega
      | succ m => rw [List.replicate_succ, List.cons_append]; rfl

theorem head?_collapseGo_zero : ∀ s : List Char, (collapseGo 0 s).head? = s.head?
  | [] => rfl
  | c :: cs => by
    by_cases hc : c = '\n'
    · subst hc
      rw [show collapseGo 0 ('\n' :: cs) = collapseGo 1 cs from by simp [collapseGo]]
      rw [head?_collapseGo_pos cs 1 (by omega)]
      rfl
    · rw [show collapseGo 0 (c :: cs) =
          List.replicate (min 0 3) '\n' ++ c :: collapseGo 0 cs from by
        simp [collapseGo, hc]]
      rfl

theorem okP_replicate_append : ∀ (m : Nat) (u : List Char), okP u = true →
    okP (List.replicate m '\n' ++ u) = true
  | 0, _, h => h
  | m + 1, u, h => by
    rw [List.replicate_succ, List.cons_append]
    apply okP_cons_of (okP_replicate_append m u h)
    intro _
    decide

theorem okP_collapseGo : ∀ (s : List Char) (k : Nat), okP s = true →
    okP (collapseGo k s) = true
  | [], k, _ => by
    rw [show collapseGo k [] = List.replicate (min k 3) '\n' from rfl]
    have := okP_replicate_append (min k 3) [] rfl
    simpa using this
  | c :: cs, k, h => by
    by_cases hc : c = '\n'
    · subst hc
      rw [show collapseGo k ('\n' :: cs) = collapseGo (k + 1) cs from by
        simp [collapseGo]]
      exact okP_collapseGo cs (k + 1) (okP_tail h)
    · rw [show collapseGo k (c :: cs) =
          List.replicate (min k 3) '\n' ++ c :: collapseGo 0 cs from by
        simp [collapseGo, hc]]
      apply okP_replicate_append
      apply okP_cons_of (okP_collapseGo cs 0 (okP_tail h))
      intro hh
      rw [head?_collapseGo_zero cs] at hh
      exact okP_head h hh

theorem okP_append_right : ∀ (l r : List Char), okP (l ++ r) = true → okP r = true
  | [], _, h => h
  | _ :: l, r, h => okP_append_right l r (okP_tail h)

theorem okP_append_left : ∀ (l r : List Char), okP (l ++ r) = true → okP l = true
  | [], _, _ => rfl
  | [_], _, _ => rfl
  | c :: d :: l', r, h => by
    have h' : (!(isST c && d = '\n') && okP (d :: (l' ++ r))) = true := h
    obtain ⟨h1, h2⟩ := Bool.and_eq_true _ _ ▸ h'
    have h3 : okP (d :: l') = true := okP_append_left (d :: l') r h2
    show (!(isST c && d = '\n') && okP (d :: l')) = true
    rw [h1, h3]
    rfl

theorem okP_snoc : ∀ (y : List Char), okP y = true →
    (∀ c, y.getLast? = some c → isST c = false) → okP (y ++ ['\n']) = true
  | [], _, _ => rfl
  | [c], _, hl => by
    have hc := hl c rfl
    show (!(isST c && ('\n' = '\n' : Bool)) && okP ['\n']) = true
    simp [hc]
    rfl
  | c :: d :: y', h, hl => by
    have h' : (!(isST c && d = '\n') && okP (d :: (y' ++ ['\n']))) = true := by
      have h0 : (!(isST c && d = '\n') && okP (d :: y')) = true := h
      obtain ⟨h1, h2⟩ := Bool.and_eq_true _ _ ▸ h0
      have h3 := okP_snoc (d :: y') h2
        (fun e he => hl e (by rwa [List.getLast?_cons_cons]))
      rw [h1, show okP (d :: (y' ++ ['\n'])) = okP ((d :: y') ++ ['\n']) from rfl, h3]
      rfl
    exact h'

/-! ### Lemmas about `pyStrip` -/

theorem dropWhile_head_eq_self {p : Char → Bool} {l : List Char}
    (h : ∀ c, l.head? = some c → p c = false) : l.dropWhile p = l := by
  cases l with
  | nil => rfl
  | cons c cs =>
    rw [List.dropWhile_cons_of_neg]
    simp [h c rfl]

theorem head_dropWhile_false {p : Char → Bool} {l : List Char} {c : Char}
    (h : (l.dropWhile p).head? = some c) : p c = false := by
  have hh := List.head?_dropWhile_not p l
  rw [h] at hh
  exact hh

theorem lstrip_idem (s : List Char) : lstripW (lstripW s) = lstripW s :=
  dropWhile_head_eq_self (fun _ hc => head_dropWhile_false hc)

theorem rstripW_getLast {s : List Char} {c : Char}
    (h : (rstripW s).getLast? = some c) : pyWS c = false := by
  rw [rstripW, List.getLast?_reverse] at h
  exact head_dropWhile_false h

theorem rstripW_eq_self {s : List Char}
    (h : ∀ c, s.getLast? = some c → pyWS c = false) : rstripW s = s := by
  have hd : s.reverse.dropWhile pyWS = s.reverse :=
    dropWhile_head_eq_self (fun c hc => h c (by rwa [List.head?_reverse] at hc))
  rw [rstripW, hd, List.reverse_reverse]

theorem getLast?_append_right {l r : List Char} (h : r ≠ []) :
    (l ++ r).getLast? = r.getLast? := by
  rw [List.getLast?_append]
  cases hr : r.getLast? with
  | none => exact absurd (List.getLast?_eq_none_iff.mp hr) h
  | some c => rfl

theorem rstripW_prefix (z : List Char) : ∃ b, z = rstripW z ++ b := by
  obtain ⟨t, ht⟩ : z.reverse.dropWhile pyWS <:+ z.reverse := List.dropWhile_suffix pyWS
  refine ⟨t.reverse, ?_⟩
  calc z = z.reverse.reverse := (List.reverse_reverse z).symm
    _ = (t ++ z.reverse.dropWhile pyWS).reverse := by rw [ht]
    _ = rstripW z ++ t.reverse := by rw [List.reverse_append, rstripW]

theorem lstrip_suffix (w : List Char) : ∃ a, w = a ++ lstripW w := by
  obtain ⟨a, ha⟩ : w.dropWhile pyWS <:+ w := List.dropWhile_suffix pyWS
  exact ⟨a, ha.symm⟩

theorem pyStrip_getLast {s : List Char} {c : Char}
    (h : (pyStrip s).getLast? = some c) : pyWS c = false := by
  rw [pyStrip, lstripW] at h
  obtain ⟨a, ha⟩ : (rstripW s).dropWhile pyWS <:+ rstripW s := List.dropWhile_suffix pyWS
  have hne : (rstripW s).dropWhile pyWS ≠ [] := by
    intro he
    rw [he] at h
    simp at h
  have hg : (rstripW s).getLast? = some c := by
    rw [← ha, getLast?_append_right hne]
    exact h
  exact rstripW_getLast hg

theorem pyStrip_rstripW_self (s : List Char) : rstripW (pyStrip s) = pyStrip s :=
  rstripW_eq_self (fun _ hc => pyStrip_getLast hc)

theorem pyStrip_lstrip_self (s : List Char) : lstripW (pyStrip s) = pyStrip s := by
  rw [pyStrip]
  exact lstrip_idem (rstripW s)

theorem rstripW_append_nl (w : List Char) : rstripW (w ++ ['\n']) = rstripW w := by
  rw [rstripW, rstripW]
  congr 1
  rw [List.reverse_append,
    show (['\n'] : List Char).reverse ++ w.reverse = '\n' :: w.reverse from rfl,
    List.dropWhile_cons_of_pos (by decide)]

theorem pyStrip_append_nl (s : List Char) :
    pyStrip (pyStrip s ++ ['\n']) = pyStrip s := by
  show lstripW (rstripW (pyStrip s ++ ['\n'])) = pyStrip s
  rw [rstripW_append_nl, pyStrip_rstripW_self, pyStrip_lstrip_self]

/-! ### Character-subset lemmas for the whitespace pipeline -/

theorem mem_replCRLF : ∀ {s : List Char} {c : Char}, c ∈ replCRLF s → c ∈ s := by
  intro s
  induction s with
  | nil => intro c h; exact absurd h (by simp [replCRLF])
  | cons d cs ih =>
    intro c h
    rw [replCRLF] at h
    split at h
    · exact List.mem_cons_of_mem d (ih h)
    · rcases List.mem_cons.mp h with h | h
      · exact h ▸ List.mem_cons_self d cs
      · exact List.mem_cons_of_mem d (ih h)

theorem mem_replCR : ∀ {s : List Char} {c : Char}, c ∈ replCR s → c ∈ s ∨ c = '\n' := by
  intro s
  induction s with
  | nil => intro c h; exact absurd h (by simp [replCR])
  | cons d cs ih =>
    intro c h
    rw [replCR] at h
    rcases List.mem_cons.mp h with h | h
    · by_cases hd : d = '\r'
      · rw [if_pos hd] at h
        exact Or.inr h
      · rw [if_neg hd] at h
        exact Or.inl (h ▸ List.mem_cons_self d cs)
    · rcases ih h with h | h
      · exact Or.inl (List.mem_cons_of_mem d h)
      · exact Or.inr h

theorem replCR_no_cr : ∀ {s : List Char} {c : Char}, c ∈ replCR s → c ≠ '\r' := by
  intro s
  induction s with
  | nil => intro c h; exact absurd h (by simp [replCR])
  | cons d cs ih =>
    intro c h
    rw [replCR] at h
    rcases List.mem_cons.mp h with h | h
    · by_cases hd : d = '\r'
      · rw [if_pos hd] at h
        subst h
        decide
      · rw [if_neg hd] at h
        exact h ▸ hd
    · exact ih h

theorem mem_rstripEOL : ∀ {s : List Char} {c : Char}, c ∈ rstripEOL s → c ∈ s := by
  intro s
  induction s with
  | nil => intro c h; exact absurd h (by simp [rstripEOL])
  | cons d cs ih =>
    intro c h
    rw [show rstripEOL (d :: cs) =
          (if isST d then
            match rstripEOL cs with
            | [] => []
            | e :: es => if e = '\n' then e :: es else d :: e :: es
          else d :: rstripEOL cs) from rfl] at h
    split at h
    · cases hr : rstripEOL cs with
      | nil => rw [hr] at h; exact absurd h (by simp)
      | cons e es =>
        rw [hr] at h
        dsimp only at h
        split at h
        · exact List.mem_cons_of_mem d (ih (hr ▸ h))
        · rcases List.mem_cons.mp h with h | h
          · exact h ▸ List.mem_cons_self d cs
          · exact List.mem_cons_of_mem d (ih (hr ▸ h))
    · rcases List.mem_cons.mp h with h | h
      · exact h ▸ List.mem_cons_self d cs
      · exact List.mem_cons_of_mem d (ih h)

theorem mem_collapseGo : ∀ (s : List Char) (k : Nat) {c : Char},
    c ∈ collapseGo k s → c ∈ s ∨ c = '\n'
  | [], k, c, h => by
    rw [show collapseGo k [] = List.replicate (min k 3) '\n' from rfl] at h
    exact Or.inr (List.eq_of_mem_replicate h)
  | d :: cs, k, c, h => by
    by_cases hd : d = '\n'
    · subst hd
      rw [show collapseGo k ('\n' :: cs) = collapseGo (k + 1) cs from by
        simp [collapseGo]] at h
      rcases mem_collapseGo cs (k + 1) h with h | h
      · exact Or.inl (List.mem_cons_of_mem _ h)
      · exact Or.inr h
    · rw [show collapseGo k (d :: cs) =
          List.replicate (min k 3) '\n' ++ d :: collapseGo 0 cs from by
        simp [collapseGo, hd]] at h
      rcases List.mem_append.mp h with h | h
      · exact Or.inr (List.eq_of_mem_replicate h)
      · rcases List.mem_cons.mp h with h | h
        · exact Or.inl (h ▸ List.mem_cons_self d cs)
        · rcases mem_collapseGo cs 0 h with h | h
          · exact Or.inl (List.mem_cons_of_mem _ h)
          · exact Or.inr h

theorem mem_pyStrip {s : List Char} {c : Char} (h : c ∈ pyStrip s) : c ∈ s := by
  rw [pyStrip] at h
  obtain ⟨a, ha⟩ := lstrip_suffix (rstripW s)
  have h1 : c ∈ rstripW s := by
    rw [ha]
    exact List.mem_append_right a h
  obtain ⟨b, hb⟩ := rstripW_prefix s
  rw [hb]
  exact List.mem_append_left b h1

theorem replCRLF_id {s : List Char} (h : ∀ c ∈ s, c ≠ '\r') : replCRLF s = s := by
  induction s with
  | nil => rfl
  | cons d cs ih =>
    rw [replCRLF,
      if_neg (fun hc => h d (List.mem_cons_self d cs) hc.1),
      ih (fun c hc => h c (List.mem_cons_of_mem d hc))]

theorem replCR_id {s : List Char} (h : ∀ c ∈ s, c ≠ '\r') : replCR s = s := by
  induction s with
  | nil => rfl
  | cons d cs ih =>
    rw [replCR, if_neg (h d (List.mem_cons_self d cs)),
      ih (fun c hc => h c (List.mem_cons_of_mem d hc))]

theorem stripCtrl_id {s : List Char} (h : ∀ c ∈ s, isCtrlCh c = false) :
    stripCtrl s = s := by
  rw [stripCtrl, List.filter_eq_self]
  intro a ha
  simp [h a ha]

theorem mem_stripCtrl {s : List Char} {c : Char} (h : c ∈ stripCtrl s) : c ∈ s :=
  (List.mem_filter.mp h).1

/-! ### The amended idempotence theorem (C3) -/

/-- The whitespace core of `clean_text`: the rewrites that are not the
    identity on trigger-free input. -/
def wsCore (s : List Char) : List Char :=
  pyStrip (collapseNl4 (rstripEOL (replCR (replCRLF s)))) ++ ['\n']

theorem cleanSafe_spec {s : List Char} (h : cleanSafe s = true) :
    ∀ c ∈ s, c ≠ '第' ∧ c ≠ '级' ∧ c ≠ 'P' ∧ c ≠ '楼' ∧ isCtrlCh c = false := by
  intro c hc
  have hx := List.all_eq_true.mp h c hc
  simp only [Bool.not_eq_true', Bool.or_eq_false_iff, decide_eq_false_iff_not] at hx
  exact ⟨hx.1.1.1.1, hx.1.1.1.2, hx.1.1.2, hx.1.2, hx.2⟩

/-- Every character of the intermediate strings of the whitespace core comes
    from the input or is a newline. -/
theorem mem_wsMid {s : List Char} {c : Char}
    (h : c ∈ collapseNl4 (rstripEOL (replCR (replCRLF s)))) : c ∈ s ∨ c = '\n' := by
  rcases mem_collapseGo _ 0 h with h | h
  · rcases mem_replCR (mem_rstripEOL h) with h | h
    · exact Or.inl (mem_replCRLF h)
    · exact Or.inr h
  · exact Or.inr h

theorem mem_wsCore {s : List Char} {c : Char} (h : c ∈ wsCore s) :
    c ∈ s ∨ c = '\n' := by
  rcases List.mem_append.mp h with h | h
  · exact mem_wsMid (mem_pyStrip h)
  · simp at h
    exact Or.inr h

theorem clean_eq_wsCore (s : List Char) (h : cleanSafe s = true) :
    clean_text s = wsCore s := by
  have hs := cleanSafe_spec h
  have h1 : sub_userinfo s = s := sub_userinfo_id (fun c hc => (hs c hc).2.1)
  have h2 : sub_posted s = s := sub_posted_id (fun c hc => (hs c hc).2.2.1)
  have h3 : sub_floor s = s := sub_floor_id (fun c hc => (hs c hc).2.2.2.1)
  have h4 : sub_signature s = s := sub_signature_id (fun c hc => (hs c hc).2.1)
  have hmid : ∀ c ∈ collapseNl4 (rstripEOL (replCR (replCRLF s))), c ∈ s ∨ c = '\n' :=
    fun c hc => mem_wsMid hc
  have h8 : stripCtrl (collapseNl4 (rstripEOL (replCR (replCRLF s)))) =
      collapseNl4 (rstripEOL (replCR (replCRLF s))) := by
    apply stripCtrl_id
    intro c hc
    rcases hmid c hc with hc' | hc'
    · exact (hs c hc').2.2.2.2
    · rw [hc']
      decide
  have h9 : sub_marker_blank (collapseNl4 (rstripEOL (replCR (replCRLF s)))) =
      collapseNl4 (rstripEOL (replCR (replCRLF s))) := by
    apply sub_marker_blank_id
    intro c hc
    rcases hmid c hc with hc' | hc'
    · exact (hs c hc').1
    · rw [hc']
      decide
  have h10 : sub_marker_break (collapseNl4 (rstripEOL (replCR (replCRLF s)))) =
      collapseNl4 (rstripEOL (replCR (replCRLF s))) := by
    apply sub_marker_break_id
    intro c hc
    rcases hmid c hc with hc' | hc'
    · exact (hs c hc').1
    · rw [hc']
      decide
  rw [clean_text, wsCore, h1, h2, h3, h4, h8, h9, h10]

theorem wsCore_safe {s : List Char} (h : cleanSafe s = true) :
    cleanSafe (wsCore s) = true := by
  rw [cleanSafe, List.all_eq_true]
  intro c hc
  rcases mem_wsCore hc with hc' | hc'
  · exact List.all_eq_true.mp h c hc'
  · rw [hc']
    decide

theorem wsCore_idem (s : List Char) : wsCore (wsCore s) = wsCore s := by
  have hmidP : okP (collapseNl4 (rstripEOL (replCR (replCRLF s)))) = true :=
    okP_collapseGo _ 0 (okP_okE_rstripEOL (replCR (replCRLF s))).1
  have hmid4 : ok4 (collapseNl4 (rstripEOL (replCR (replCRLF s)))) = true :=
    ok4_collapseGo _ 0
  obtain ⟨b, hb⟩ := rstripW_prefix (collapseNl4 (rstripEOL (replCR (replCRLF s))))
  obtain ⟨a, ha⟩ := lstrip_suffix (rstripW (collapseNl4 (rstripEOL (replCR (replCRLF s)))))
  have hyP : okP (pyStrip (collapseNl4 (rstripEOL (replCR (replCRLF s))))) = true := by
    rw [pyStrip]
    exact okP_append_right a _ (ha ▸ okP_append_left _ b (hb ▸ hmidP))
  have hy4 : ok4 (pyStrip (collapseNl4 (rstripEOL (replCR (replCRLF s))))) = true := by
    rw [pyStrip]
    exact ok4Aux_append_right a _ 0 (ha ▸ ok4Aux_append_left _ b 0 (hb ▸ hmid4))
  set y := pyStrip (collapseNl4 (rstripEOL (replCR (replCRLF s)))) with hy
  have hwc : wsCore s = y ++ ['\n'] := rfl
  have hnocr : ∀ c ∈ y ++ ['\n'], c ≠ '\r' := by
    intro c hc
    rcases mem_wsCore (hwc ▸ hc) with hc' | hc'
    · rcases mem_wsCore (hwc ▸ hc) with _ | h2
      · -- c comes from s; but we only need that c is not CR when it
        -- survives replCR, so go through the pipeline membership directly
        rcases List.mem_append.mp hc with hm | hm
        · have h1 := mem_pyStrip hm
          rcases mem_collapseGo _ 0 h1 with h3 | h3
          · exact replCR_no_cr (mem_rstripEOL h3)
          · rw [h3]; decide
        · simp at hm; rw [hm]; decide
      · rw [h2]; decide
    · rw [hc']; decide
  have h5 : replCR (replCRLF (y ++ ['\n'])) = y ++ ['\n'] := by
    rw [replCRLF_id hnocr, replCR_id hnocr]
  have hokPy : okP (y ++ ['\n']) = true := by
    apply okP_snoc y hyP
    intro c hcl
    have hws := pyStrip_getLast (hy ▸ hcl)
    cases hst : isST c
    · rfl
    · exfalso
      have : pyWS c = true := by
        rcases Bool.or_eq_true _ _ ▸ hst with h' | h'
        · rw [pyWS, (by simpa using h' : c = ' ')]
          decide
        · rw [pyWS, (by simpa using h' : c = '\t')]
          decide
      rw [this] at hws
      exact absurd hws (by simp)
  have hokEy : okE (y ++ ['\n']) = true := by
    rw [okE, List.getLast?_concat]
    decide
  have h6 : rstripEOL (y ++ ['\n']) = y ++ ['\n'] := rstripEOL_of_ok _ hokPy hokEy
  have hok4y : ok4 (y ++ ['\n']) = true := by
    cases hyn : y with
    | nil => decide
    | cons d ds =>
      rw [← hyn]
      apply ok4_append_nl y 0 (by rw [hyn]; simp) hy4
      intro hgl
      have := pyStrip_getLast (hy ▸ hgl)
      exact absurd this (by simp [pyWS])
  have h7 : collapseNl4 (y ++ ['\n']) = y ++ ['\n'] := by
    have := collapse_of_ok4 (y ++ ['\n']) 0 (by omega) hok4y
    simpa [collapseNl4] using this
  show pyStrip (collapseNl4 (rstripEOL (replCR (replCRLF (y ++ ['\n']))))) ++ ['\n'] =
    y ++ ['\n']
  rw [h5, h6, h7, hy, pyStrip_append_nl]

/-- C3 (amended): the normalizer is idempotent on every input that contains
    none of the rewrite-trigger characters 第, 级, P, 楼 and no control
    characters (on such input only the whitespace pipeline acts, and it is a
    projection); the counterexample shows idempotence fails in general. -/
theorem c3_normalizer_idem (s : List Char) (h : cleanSafe s = true) :
    clean_text (clean_text s) = clean_text s := by
  rw [clean_eq_wsCore s h, clean_eq_wsCore (wsCore s) (wsCore_safe h), wsCore_idem]

/-- Witness for C3: the amended idempotence at a concrete safe input. -/
theorem c3_normalizer_idem_witness :
    cleanSafe (chars "a \n\n\n\n\nb") = true ∧
    clean_text (clean_text (chars "a \n\n\n\n\nb")) = clean_text (chars "a \n\n\n\n\nb") :=
  ⟨by decide, c3_normalizer_idem (chars "a \n\n\n\n\nb") (by decide)⟩

/-! ### Paragraph reflow engine — `md/process_chapters_reusable.py`

`format_chapter_content_sop` and its helpers.  Line-level regular
expressions become the scanners below; the two length thresholds are the
module constants `PARAGRAPH_MIN_LENGTH` and `NEXT_SENTENCE_MIN_LENGTH`,
kept as parameters of the paragraph splitter (the spec calls them
configuration options) with the source's defaults. -/

/-- 段落格式化参数 of the source. -/
def PARAGRAPH_MIN_LENGTH : Nat := 100

def NEXT_SENTENCE_MIN_LENGTH : Nat := 20

/-- The combined numeral class `[0-9一二三四五六七八九十百]`. -/
def isNumCls (c : Char) : Bool := isDigitCh c || isChineseNumCh c

/-- `re.search(r'第([0-9一二三四五六七八九十百]+)[回章]', s)`: group 1 of the
    first match. -/
def chapterSearchGroup : List Char → Option (List Char)
  | [] => none
  | c :: cs =>
    let run := cs.takeWhile isNumCls
    if c = '第' ∧ run ≠ [] ∧
        ((cs.drop run.length).head? = some '回' ∨ (cs.drop run.length).head? = some '章') then
      some run
    else chapterSearchGroup cs

/-- `re.sub(r'第[0-9一二三四五六七八九十百]+[回章]\s*', '', s)`. -/
def sub_marker_ru_go : Nat → List Char → List Char
  | 0, s => s
  | _ + 1, [] => []
  | fuel + 1, c :: cs =>
    let run := cs.takeWhile isNumCls
    if c = '第' ∧ run ≠ [] ∧
        ((cs.drop run.length).head? = some '回' ∨ (cs.drop run.length).head? = some '章') then
      sub_marker_ru_go fuel ((cs.drop (run.length + 1)).dropWhile pyWS)
    else c :: sub_marker_ru_go fuel cs

def sub_marker_ru (s : List Char) : List Char := sub_marker_ru_go s.length s

/-- Matches `:\d{4}-\d{2}-\d{2}\s*` at the head, returning the rest. -/
def dateSufAt (s : List Char) : Option (List Char) :=
  match s with
  | c :: rest => if c = ':' then (datePrefix rest).map (·.dropWhile pyWS) else none
  | [] => none

/-- `re.sub(r':\d{4}-\d{2}-\d{2}\s*', '', s)`. -/
def sub_date_go : Nat → List Char → List Char
  | 0, s => s
  | _ + 1, [] => []
  | fuel + 1, c :: cs =>
    match dateSufAt (c :: cs) with
    | some rest => sub_date_go fuel rest
    | none => c :: sub_date_go fuel cs

def sub_date (s : List Char) : List Char := sub_date_go s.length s

/-- `s.replace('?', '')`. -/
def removeQ (s : List Char) : List Char := s.filter (fun c => c ≠ '?')

/-- `s.replace('窗体底端', '')`. -/
def removeChuangGo : Nat → List Char → List Char
  | 0, s => s
  | _ + 1, [] => []
  | fuel + 1, c :: cs =>
    if (chars "窗体底端").isPrefixOf (c :: cs) then removeChuangGo fuel ((c :: cs).drop 4)
    else c :: removeChuangGo fuel cs

def removeChuang (s : List Char) : List Char := removeChuangGo s.length s

/-- Earliest occurrence of a literal; returns the rest after it. -/
def huntLit (lit : List Char) : List Char → Option (List Char)
  | [] => none
  | c :: cs =>
    if lit.isPrefixOf (c :: cs) then some ((c :: cs).drop lit.length)
    else huntLit lit cs

/-- `re.sub(r'级别:.*?注册时间.*?最后登录.*?\s*', '', s)` (within one line; the
    final lazy `.*?` contributes nothing and the greedy `\s*` takes the
    following whitespace run). -/
def sub_userinfo_line_go : Nat → List Char → List Char
  | 0, s => s
  | _ + 1, [] => []
  | fuel + 1, c :: cs =>
    if (chars "级别:").isPrefixOf (c :: cs) then
      match huntLit (chars "注册时间") ((c :: cs).drop 3) with
      | some r1 =>
        match huntLit (chars "最后登录") r1 with
        | some r2 => sub_userinfo_line_go fuel (r2.dropWhile pyWS)
        | none => c :: sub_userinfo_line_go fuel cs
      | none => c :: sub_userinfo_line_go fuel cs
    else c :: sub_userinfo_line_go fuel cs

def sub_userinfo_line (s : List Char) : List Char := sub_userinfo_line_go s.length s

/-- Substring containment (`lit in s` / an unanchored literal search). -/
def containsSeq (pat : List Char) : List Char → Bool
  | [] => pat.isEmpty
  | c :: cs => pat.isPrefixOf (c :: cs) || containsSeq pat cs

/-- The `\[.*楼\]` alternative: an opening bracket with 楼] somewhere after. -/
def hasFloorTag : List Char → Bool
  | [] => false
  | c :: cs => (c = '[' && containsSeq (chars "楼]") cs) || hasFloorTag cs

/-- `re.search(r'级别:|发帖:|Posted:|\[.*楼\]|堂中威望|贡献值|注册时间|最后登录|梦中的王子', s)`. -/
def sopNoise (s : List Char) : Bool :=
  containsSeq (chars "级别:") s || containsSeq (chars "发帖:") s ||
  containsSeq (chars "Posted:") s || hasFloorTag s ||
  containsSeq (chars "堂中威望") s || containsSeq (chars "贡献值") s ||
  containsSeq (chars "注册时间") s || containsSeq (chars "最后登录") s ||
  containsSeq (chars "梦中的王子") s

/-- The class `[^。，！？]` (negated). -/
def isPunct4 (c : Char) : Bool := c = '。' || c = '，' || c = '！' || c = '？'

def isOpenParen (c : Char) : Bool := c = '（' || c = '('

def isCloseParen (c : Char) : Bool := c = '）' || c = ')'

/-- The `\s+(.+)$` tail shared by the subtitle patterns, after a prefix of
    length q + 1: the greedy whitespace run gives one character back when the
    run reaches the end (the `(.+)` must be nonempty, matching any character
    but a newline — lines contain none). -/
def wsBodyTail (s : List Char) (q : Nat) : Option (List Char × List Char) :=
  let rest := s.drop (q + 1)
  let r := (rest.takeWhile pyWS).length
  if r = 0 then none
  else if rest.drop r ≠ [] then some (s.take (q + 1), rest.drop r)
  else if 2 ≤ r then some (s.take (q + 1), rest.drop (r - 1))
  else none

/-- `re.match(r'^([^。，！？]*[（(].*?[）)])\s+(.+)$', s)` as (group 1,
    group 2).  The greedy class run places the open paren as far right as
    possible; the lazy `.*?` places the close paren as far left as possible;
    first full match wins. -/
def bracketBody (s : List Char) : Option (List Char × List Char) :=
  ((List.range s.length).reverse.filterMap (fun p =>
    if isOpenParen (s.getD p ' ') ∧ (s.take p).all (fun c => !isPunct4 c) then
      ((List.range s.length).filterMap (fun q =>
        if p < q ∧ isCloseParen (s.getD q ' ') then wsBodyTail s q else none)).head?
    else none)).head?

/-- `re.match(r'^[^。，！？]*[（(].*?[）)]$', s)`: the line is a punct-free
    prefix, an open paren, anything, and a close paren at the very end. -/
def fullBracket (s : List Char) : Bool :=
  !s.isEmpty && isCloseParen ((s.getLast?).getD ' ') &&
  (List.range (s.length - 1)).any (fun p =>
    isOpenParen (s.getD p ' ') && (s.take p).all (fun c => !isPunct4 c))

/-- One candidate split of `^([^。，！？]{2,10})\s+(.+)$` at prefix length L. -/
def simpleTailAt (s : List Char) (L : Nat) : Option (List Char × List Char) :=
  if L < s.length ∧ (s.take L).all (fun c => !isPunct4 c) then
    let rest := s.drop L
    let r := (rest.takeWhile pyWS).length
    if r = 0 then none
    else if rest.drop r ≠ [] then some (s.take L, rest.drop r)
    else if 2 ≤ r then some (s.take L, rest.drop (r - 1))
    else none
  else none

/-- `re.match(r'^([^。，！？]{2,10})\s+(.+)$', s)`: greedy prefix, longest
    first. -/
def simpleSub (s : List Char) : Option (List Char × List Char) :=
  ([10, 9, 8, 7, 6, 5, 4, 3, 2].filterMap (simpleTailAt s)).head?

/-- `re.sub(r'\s+', ' ', s)` as a one-pass state machine. -/
def collapseWSGo : Bool → List Char → List Char
  | _, [] => []
  | pw, c :: cs =>
    if pyWS c then
      (if pw then collapseWSGo true cs else ' ' :: collapseWSGo true cs)
    else c :: collapseWSGo false cs

def collapseWS (s : List Char) : List Char := collapseWSGo false s

/-- The shared subtitle-handling block of the two marker-line branches of
    `format_chapter_content_sop` (lines 135-147 and 165-176): `none` means
    the whole line is skipped (a short fully-parenthesized subtitle). -/
def subtitleReduce (remaining : List Char) : Option (List Char) :=
  match bracketBody remaining with
  | some (_, body) => some (pyStrip body)
  | none =>
    if fullBracket remaining ∧ remaining.length < 50 then none
    else
      match simpleSub remaining with
      | some (sub, body) =>
        if sub.length ≤ 10 ∧ 20 < body.length then some (pyStrip body)
        else some remaining
      | none => some remaining

/-- Tail of both marker-line branches: subtitle handling, a final marker
    strip, and a conditional append. -/
def markerLineReduce (base : List Char) : List (List Char) :=
  match subtitleReduce base with
  | none => []
  | some rem =>
    let rem2 := sub_marker_ru rem
    if rem2 ≠ [] then [rem2] else []

/-- The `i == 0 and not start_processing` branch (source lines 189-216). -/
def firstLineEmit (stripped : List Char) : List (List Char) :=
  match bracketBody stripped with
  | some (_, body) =>
    let b := sub_date (sub_marker_ru (pyStrip body))
    if b ≠ [] then [b] else []
  | none =>
    let viaSimple : Option (List (List Char)) :=
      match simpleSub stripped with
      | some (sub, body) =>
        if sub.length ≤ 10 ∧ 20 < body.length then
          let b := sub_date (sub_marker_ru (pyStrip body))
          if b ≠ [] then some [b] else none
        else none
      | none => none
    match viaSimple with
    | some e => e
    | none =>
      let cl := sub_date (sub_marker_ru stripped)
      if cl ≠ [] then [cl] else []

/-- The class `[。！？]`. -/
def isSentPunct (c : Char) : Bool := c = '。' || c = '！' || c = '？'

/-- `sentence.endswith(('。', '！', '？'))`. -/
def endsSent (s : List Char) : Bool :=
  s.getLast? = some '。' || s.getLast? = some '！' || s.getLast? = some '？'

/-- Steps 4-6 and the final cleanup for an in-chapter body line (source lines
    221-248). -/
def bodyLineEmit (stripped : List Char) : List (List Char) :=
  if fullBracket stripped ∧ stripped.length < 50 then []
  else
    match bracketBody stripped with
    | some (_, body) =>
      let b := sub_date (sub_marker_ru (pyStrip body))
      if b ≠ [] then [b] else []
    | none =>
      if stripped ≠ [] ∧ stripped.all (fun c => !isPunct4 c) ∧ stripped.length < 20 ∧
          endsSent stripped = false then []
      else if stripped = ['?'] then []
      else
        let s1 := if stripped.head? = some '?' then pyStrip (stripped.drop 1) else stripped
        let s2 := pyStrip (removeChuang s1)
        let s3 := sub_date (sub_marker_ru s2)
        if s3 ≠ [] then [s3] else []

/-- Result of processing one line of the `format_chapter_content_sop` loop. -/
structure LineOut where
  emit : List (List Char)
  started : Bool
  stop : Bool

/-- One iteration of the line loop of `format_chapter_content_sop`.  `first`
    is `i == 0`. -/
def sopLineStep (num : Nat) (first : Bool) (started : Bool) (l : List Char) : LineOut :=
  let stripped := pyStrip l
  if stripped = [] then
    { emit := if started then [[]] else [], started := started, stop := false }
  else if sopNoise stripped then
    match chapterSearchGroup stripped with
    | some g =>
      if normalize_chapter_number g = some num then
        { emit := markerLineReduce (sub_date (pyStrip (removeQ (sub_marker_ru
            (sub_userinfo_line stripped))))), started := true, stop := false }
      else { emit := [], started := started, stop := false }
    | none => { emit := [], started := started, stop := false }
  else
    match chapterSearchGroup stripped with
    | some g =>
      if normalize_chapter_number g = some num then
        { emit := markerLineReduce (sub_date (pyStrip (removeQ (sub_marker_ru stripped)))),
          started := true, stop := false }
      else if started then { emit := [], started := started, stop := true }
      else { emit := [], started := started, stop := false }
    | none =>
      if first ∧ started = false then
        { emit := firstLineEmit stripped, started := true, stop := false }
      else if started = false then { emit := [], started := false, stop := false }
      else { emit := bodyLineEmit stripped, started := true, stop := false }

/-- The filtering loop of `format_chapter_content_sop` over the line list. -/
def sopFilterAux (num : Nat) : Bool → Bool → List (List Char) → List (List Char)
  | _, _, [] => []
  | first, started, l :: rest =>
    let r := sopLineStep num first started l
    r.emit ++ (if r.stop then [] else sopFilterAux num false r.started rest)

/-- `re.split(r'([。！？])', full_text)` as (text piece, following separator)
    pairs; the final pair has no separator, matching the trailing text piece
    of `re.split`. -/
def splitPunct : List Char → List (List Char × Option Char)
  | [] => [([], none)]
  | c :: cs =>
    if isSentPunct c then ([], some c) :: splitPunct cs
    else
      match splitPunct cs with
      | [] => [([c], none)]
      | (t, p) :: rest => ((c :: t), p) :: rest

/-- Trailing close of the paragraph loop. -/
def closeParas (cur : List (List Char)) : List (List Char) :=
  if cur = [] then []
  else
    let p := pyStrip (joinSp cur)
    if p = [] then [] else [p]

/-- The while loop of `format_chapter_content_sop` over the split parts (the
    index steps by two, i.e. one (text, separator) pair per iteration,
    peeking at the next pair for the closing condition). -/
def paraLoop (minL nextL : Nat) :
    List (List Char × Option Char) → List (List Char) → List (List Char)
  | [], cur => closeParas cur
  | (t, op) :: rest, cur =>
    if pyStrip t = [] then paraLoop minL nextL rest cur
    else
      let sentence := pyStrip (t ++ op.toList)
      if sentence = [] then paraLoop minL nextL rest cur
      else
        let cur2 := cur ++ [sentence]
        if endsSent sentence then
          match rest with
          | (t2, op2) :: _ =>
            let nextSentence := pyStrip (t2 ++ op2.toList)
            let curText := joinSp cur2
            if nextL < nextSentence.length ∧ minL < curText.length then
              (let p := pyStrip curText
               if p = [] then [] else [p]) ++ paraLoop minL nextL rest []
            else paraLoop minL nextL rest cur2
          | [] =>
            -- the loop ends right after this close, with cur reset
            (let p := pyStrip (joinSp cur2)
             if p = [] then [] else [p])
        else paraLoop minL nextL rest cur2

/-- The paragraph-splitting stage applied to the joined text. -/
def splitParagraphs (minL nextL : Nat) (fullText : List Char) : List (List Char) :=
  paraLoop minL nextL (splitPunct fullText) []

/-- `md/process_chapters_reusable.format_chapter_content_sop`. -/
def format_chapter_content_sop (content : List Char) (num : Nat) : List Char :=
  let filtered := sopFilterAux num true false (splitNl content)
  let fullText := collapseWS (sub_date (sub_marker_ru (joinSp filtered)))
  pyStrip (joinWith (chars "\n\n")
    (splitParagraphs PARAGRAPH_MIN_LENGTH NEXT_SENTENCE_MIN_LENGTH fullText))

/-- `md/process_chapters_reusable.generate_markdown`. -/
def generate_markdown_ru (num : Nat) (formatted : List Char) : List Char :=
  if pyStrip formatted = [] then
    chars "# 第" ++ natChars num ++ chars "章\n\n本章节内容为空。"
  else chars "# 第" ++ natChars num ++ chars "章\n\n" ++ formatted

/-! ### C8: the end-to-end subtitle scenario -/

/-- C8 counterexample: the claimed output (subtitle 绝代风华 stripped) is not
    what the reflow produces on the scenario input. -/
theorem c8_counterexample :
    generate_markdown_ru 3
        (format_chapter_content_sop
          (chars "第3回 绝代风华 林黛玉初入荣国府，众人皆惊。") 3) ≠
      chars "# 第3章\n\n林黛玉初入荣国府，众人皆惊。" := by decide

/-- C8 (amended): the scenario yields heading 第3章 but keeps the subtitle,
    because the inline-subtitle strip fires only when the body part exceeds
    20 characters and the body 林黛玉初入荣国府，众人皆惊。 has length 14. -/
theorem c8_scenario_amended :
    generate_markdown_ru 3
        (format_chapter_content_sop
          (chars "第3回 绝代风华 林黛玉初入荣国府，众人皆惊。") 3) =
      chars "# 第3章\n\n绝代风华 林黛玉初入荣国府，众人皆惊。" ∧
    (simpleSub (chars "绝代风华 林黛玉初入荣国府，众人皆惊。")).map
        (fun p => (p.1, p.2.length)) = some (chars "绝代风华", 14) := by decide

/-! ### C7: termination on a foreign chapter marker -/

/-- C7 counterexample: a forum-noise line carrying a marker of a different
    chapter (Posted: 第5回 while processing chapter 3) does not terminate
    processing — text of the following line still reaches the output. -/
theorem c7_counterexample :
    chapterSearchGroup (pyStrip (chars "Posted: 第5回")) = some (chars "5") ∧
    normalize_chapter_number (chars "5") = some 5 ∧
    sopNoise (pyStrip (chars "Posted: 第5回")) = true ∧
    format_chapter_content_sop
        (chars "第3回 正文开始了。\nPosted: 第5回\n后面还有内容在这里。") 3 =
      chars "正文开始了。 后面还有内容在这里。" := by decide

/-- C7 (amended): once processing has started, a line that is not classified
    as forum noise and whose first marker's normalized number differs from
    the target chapter terminates processing: nothing from that line or any
    later line is emitted.  (A forum-noise line carrying a foreign marker is
    skipped without terminating, as the counterexample shows.) -/
theorem c7_termination_amended (num : Nat) (l : List Char) (rest : List (List Char))
    (g : List Char)
    (hne : pyStrip l ≠ [])
    (hnoise : sopNoise (pyStrip l) = false)
    (hg : chapterSearchGroup (pyStrip l) = some g)
    (hnum : normalize_chapter_number g ≠ some num) :
    sopFilterAux num false true (l :: rest) = [] := by
  have hstep : sopLineStep num false true l = ⟨[], true, true⟩ := by
    simp only [sopLineStep]
    rw [if_neg hne,
      if_neg (show ¬ sopNoise (pyStrip l) = true by rw [hnoise]; simp), hg]
    dsimp only
    rw [if_neg hnum]
    rfl
  rw [show sopFilterAux num false true (l :: rest) =
        (sopLineStep num false true l).emit ++
          (if (sopLineStep num false true l).stop then []
           else sopFilterAux num false (sopLineStep num false true l).started rest)
      from rfl,
    hstep]
  rfl

/-- Witness for C7: the amended termination at a concrete line. -/
theorem c7_termination_witness :
    pyStrip (chars "第5回x") ≠ [] ∧
    sopNoise (pyStrip (chars "第5回x")) = false ∧
    chapterSearchGroup (pyStrip (chars "第5回x")) = some (chars "5") ∧
    normalize_chapter_number (chars "5") ≠ some 3 ∧
    sopFilterAux 3 false true [chars "第5回x", chars "zzz"] = [] :=
  ⟨by decide, by decide, by decide, by decide,
    c7_termination_amended 3 (chars "第5回x") [chars "zzz"] (chars "5")
      (by decide) (by decide) (by decide) (by decide)⟩

/-! ### C6: non-final paragraphs exceed the minimum length -/

/-- Nonempty and strip-invariant, the shape of every sentence pushed into the
    current paragraph. -/
def Trimmed (e : List Char) : Prop := e ≠ [] ∧ lstripW e = e ∧ rstripW e = e

theorem lstrip_eq_self_head {c : Char} {cs : List Char}
    (h : lstripW (c :: cs) = c :: cs) : pyWS c = false := by
  cases hp : pyWS c with
  | false => rfl
  | true =>
    exfalso
    rw [lstripW, List.dropWhile_cons_of_pos hp] at h
    have hlen : (cs.dropWhile pyWS).length ≤ cs.length :=
      List.IsSuffix.length_le (List.dropWhile_suffix pyWS)
    have hlen2 := congrArg List.length h
    simp only [List.length_cons] at hlen2
    omega

theorem rstrip_eq_self_last {y : List Char} (h : rstripW y = y) :
    ∀ c, y.getLast? = some c → pyWS c = false := by
  intro c hc
  have hrev : y.reverse.dropWhile pyWS = y.reverse := by
    have h2 := congrArg List.reverse h
    rwa [rstripW, List.reverse_reverse] at h2
  cases hyrev : y.reverse with
  | nil =>
    rw [← List.head?_reverse, hyrev] at hc
    simp at hc
  | cons d ds =>
    have hd : d = c := by
      rw [← List.head?_reverse, hyrev] at hc
      simpa using hc
    rw [hyrev] at hrev
    exact hd ▸ lstrip_eq_self_head (show lstripW (d :: ds) = d :: ds from hrev)

theorem lstrip_append_left {x t : List Char} (hx : x ≠ []) (hl : lstripW x = x) :
    lstripW (x ++ t) = x ++ t := by
  cases x with
  | nil => exact absurd rfl hx
  | cons c cs =>
    have hc := lstrip_eq_self_head hl
    rw [lstripW, List.cons_append, List.dropWhile_cons_of_neg (by simp [hc])]

theorem joinSp_ne_nil : ∀ cur : List (List Char), cur ≠ [] →
    (∀ e ∈ cur, e ≠ []) → joinSp cur ≠ []
  | [], h, _ => absurd rfl h
  | [x], _, he => by simpa [joinSp, joinWith] using he x (by simp)
  | x :: y :: r, _, _ => by
    simp only [joinSp, joinWith]
    simp

theorem joinSp_head_lstrip : ∀ cur : List (List Char), cur ≠ [] →
    (∀ e ∈ cur, Trimmed e) → lstripW (joinSp cur) = joinSp cur
  | [], h, _ => absurd rfl h
  | [x], _, he => (he x (by simp)).2.1
  | x :: y :: r, _, he => by
    simp only [joinSp, joinWith]
    rw [List.append_assoc]
    have hx := he x (by simp)
    exact lstrip_append_left hx.1 hx.2.1

theorem joinSp_last_ok : ∀ cur : List (List Char), cur ≠ [] →
    (∀ e ∈ cur, Trimmed e) →
    ∀ c, (joinSp cur).getLast? = some c → pyWS c = false
  | [], h, _, _, _ => absurd rfl h
  | [x], _, he, c, hc => rstrip_eq_self_last (he x (by simp)).2.2 c hc
  | x :: y :: r, _, he, c, hc => by
    have he' : ∀ e ∈ y :: r, Trimmed e := fun e hee => he e (List.mem_cons_of_mem x hee)
    have hrest : joinWith [' '] (y :: r) ≠ [] := by
      have := joinSp_ne_nil (y :: r) (by simp) (fun e hee => (he' e hee).1)
      simpa [joinSp] using this
    apply joinSp_last_ok (y :: r) (by simp) he' c
    simp only [joinSp, joinWith] at hc ⊢
    rw [List.append_assoc,
      getLast?_append_right (by simp : ([' '] : List Char) ++ joinWith [' '] (y :: r) ≠ []),
      getLast?_append_right hrest] at hc
    exact hc

theorem trimmed_joinSp {cur : List (List Char)} (hne : cur ≠ [])
    (he : ∀ e ∈ cur, Trimmed e) : pyStrip (joinSp cur) = joinSp cur := by
  rw [pyStrip, rstripW_eq_self (joinSp_last_ok cur hne he),
    joinSp_head_lstrip cur hne he]

theorem joinSp_nonempty {cur : List (List Char)} (hne : cur ≠ [])
    (he : ∀ e ∈ cur, Trimmed e) : joinSp cur ≠ [] :=
  joinSp_ne_nil cur hne (fun e hee => (he e hee).1)

theorem mem_dropLast_cons {q a : List Char} {L : List (List Char)}
    (h : q ∈ (a :: L).dropLast) : q = a ∨ q ∈ L.dropLast := by
  cases L with
  | nil => simp at h
  | cons b L' =>
    rw [List.dropLast_cons₂] at h
    exact List.mem_cons.mp h

theorem paraLoop_min_length (minL nextL : Nat) :
    ∀ (segs : List (List Char × Option Char)) (cur : List (List Char)),
      (∀ e ∈ cur, Trimmed e) →
      ∀ q ∈ (paraLoop minL nextL segs cur).dropLast, minL < q.length
  | [], cur, _, q, hq => by
    exfalso
    rw [show paraLoop minL nextL [] cur = closeParas cur from rfl] at hq
    simp only [closeParas] at hq
    by_cases hc : cur = []
    · rw [if_pos hc] at hq
      simp at hq
    · rw [if_neg hc] at hq
      by_cases hp : pyStrip (joinSp cur) = []
      · rw [if_pos hp] at hq
        simp at hq
      · rw [if_neg hp] at hq
        simp at hq
  | (t, op) :: rest, cur, hcur, q, hq => by
    simp only [paraLoop] at hq
    by_cases h1 : pyStrip t = []
    · rw [if_pos h1] at hq
      exact paraLoop_min_length minL nextL rest cur hcur q hq
    · rw [if_neg h1] at hq
      by_cases h2 : pyStrip (t ++ op.toList) = []
      · rw [if_pos h2] at hq
        exact paraLoop_min_length minL nextL rest cur hcur q hq
      · rw [if_neg h2] at hq
        have hcur2 : ∀ e ∈ cur ++ [pyStrip (t ++ op.toList)], Trimmed e := by
          intro e hee
          rcases List.mem_append.mp hee with hee | hee
          · exact hcur e hee
          · rw [List.mem_singleton.mp hee]
            exact ⟨h2, pyStrip_lstrip_self _, pyStrip_rstripW_self _⟩
        by_cases h3 : endsSent (pyStrip (t ++ op.toList)) = true
        · rw [if_pos h3] at hq
          cases hrest : rest with
          | nil =>
            rw [hrest] at hq
            exfalso
            by_cases hp : pyStrip (joinSp (cur ++ [pyStrip (t ++ op.toList)])) = []
            · rw [if_pos hp] at hq
              simp at hq
            · rw [if_neg hp] at hq
              simp at hq
          | cons seg2 rest' =>
            obtain ⟨t2, op2⟩ := seg2
            rw [hrest] at hq
            dsimp only at hq
            by_cases h4 : nextL < (pyStrip (t2 ++ op2.toList)).length ∧
                minL < (joinSp (cur ++ [pyStrip (t ++ op.toList)])).length
            · rw [if_pos h4] at hq
              have hpj := trimmed_joinSp
                (by simp : cur ++ [pyStrip (t ++ op.toList)] ≠ []) hcur2
              have hjn := joinSp_nonempty
                (by simp : cur ++ [pyStrip (t ++ op.toList)] ≠ []) hcur2
              rw [hpj, if_neg hjn, List.singleton_append] at hq
              rcases mem_dropLast_cons hq with hq | hq
              · rw [hq]
                exact h4.2
              · exact paraLoop_min_length minL nextL ((t2, op2) :: rest') []
                  (by simp) q hq
            · rw [if_neg h4] at hq
              exact paraLoop_min_length minL nextL ((t2, op2) :: rest') _ hcur2 q hq
        · rw [if_neg h3] at hq
          exact paraLoop_min_length minL nextL rest _ hcur2 q hq

/-- C6: for every input text and every threshold configuration, the sentence
    accumulator closes a paragraph only when the accumulated text exceeds the
    paragraph threshold, so no paragraph except the final one has length at
    most the minimum paragraph length. -/
theorem c6_reflow_min_paragraph (minL nextL : Nat) (fullText : List Char) :
    ∀ q ∈ (splitParagraphs minL nextL fullText).dropLast, minL < q.length :=
  paraLoop_min_length minL nextL (splitPunct fullText) [] (by simp)

/-- Witness for C6: a concrete two-paragraph split where the non-final
    paragraph exceeds the threshold. -/
theorem c6_reflow_min_paragraph_witness :
    chars "abcde。" ∈ (splitParagraphs 3 1 (chars "abcde。fg。")).dropLast ∧
    3 < (chars "abcde。").length :=
  ⟨by decide,
    c6_reflow_min_paragraph 3 1 (chars "abcde。fg。") (chars "abcde。") (by decide)⟩

/-! ## process_chapters_batch.py -/

/-- The class `[0-9一二三四五六七八九十百]` of the batch marker pattern. -/
def batchCls (c : Char) : Bool := isDigitCh c || isChineseNumCh c

/-- `re.search(r'^第[0-9一二三四五六七八九十百]+[回章]|^第[0-9一二三四五六七八九十百]+[回章]\s', line)`.
    Both alternatives are anchored, and the second implies the first, so the
    test is a prefix test: 第, then a nonempty class run, then 回 or 章 (since
    回 and 章 are outside the class, the greedy run must stop exactly at the
    unit character). -/
def batchMarker (l : List Char) : Bool :=
  match l with
  | [] => false
  | c :: rest =>
    c = '第' &&
      (let ds := rest.takeWhile batchCls
       !ds.isEmpty &&
         (match (rest.dropWhile batchCls).head? with
          | some u => u = '回' || u = '章'
          | none => false))

/-- `f"{n:02d}"`: decimal digits left-padded with zeros to width two. -/
def pad2 (n : Nat) : List Char :=
  if n < 10 then '0' :: natChars n else natChars n

/-- 第 followed by the given digit block and unit character. -/
def markerPre (ds : List Char) (u : Char) : List Char := '第' :: (ds ++ [u])

/-- `re.search(rf'^第0?{chapter_num}[回章]|^第{chapter_num:02d}[回章]', line)`:
    the chapter's own number, optionally zero-padded. -/
def batchThis (num : Nat) (l : List Char) : Bool :=
  (markerPre (natChars num) '回').isPrefixOf l ||
  (markerPre (natChars num) '章').isPrefixOf l ||
  (markerPre ('0' :: natChars num) '回').isPrefixOf l ||
  (markerPre ('0' :: natChars num) '章').isPrefixOf l ||
  (markerPre (pad2 num) '回').isPrefixOf l ||
  (markerPre (pad2 num) '章').isPrefixOf l

/-- The line filter loop of `format_chapter_content` (source lines 43-74):
    `acc` is `filtered_lines`, the Bool is `skip_initial_forum`; a foreign
    marker `break`s, returning the lines collected so far.  The forum-noise
    alternation is the same as the reusable script's, hence `sopNoise`. -/
def batchFilterGo (num : Nat) : Bool → List (List Char) → List (List Char) →
    List (List Char)
  | _, acc, [] => acc
  | skipF, acc, l :: rest =>
    if batchMarker l then
      if batchThis num l then batchFilterGo num false acc rest
      else acc
    else if skipF && sopNoise l then
      batchFilterGo num skipF acc rest
    else
      let stripped := pyStrip l
      if stripped = [] ∨ stripped = ['?'] then
        batchFilterGo num skipF (if acc.isEmpty then acc else acc ++ [[]]) rest
      else if stripped.length < 2 then
        batchFilterGo num skipF acc rest
      else
        batchFilterGo num false (acc ++ [l]) rest

/-- `last_char in '。！？'`, where a missing last character (empty previous
    line) compares unequal to all three. -/
def batchEnd (oc : Option Char) : Bool :=
  match oc with
  | some c => c = '。' || c = '！' || c = '？'
  | none => false

/-- The paragraph merge loop of `format_chapter_content` (source lines
    85-107): `paras` is `paragraphs`, `cur` is `current_para`. -/
def batchMergeGo : List (List Char) → List (List Char) → List (List Char) →
    List (List Char)
  | paras, cur, [] => if cur.isEmpty then paras else paras ++ [joinSp cur]
  | paras, cur, l0 :: rest =>
    let l := pyStrip l0
    if l = [] then
      if cur.isEmpty then batchMergeGo paras cur rest
      else batchMergeGo (paras ++ [joinSp cur]) [] rest
    else if cur.isEmpty then batchMergeGo paras (cur ++ [l]) rest
    else if batchEnd ((cur.getLast?.getD []).getLast?) = true ∧ 10 < l.length then
      batchMergeGo (paras ++ [joinSp cur]) [l] rest
    else batchMergeGo paras (cur ++ [l]) rest

/-- `format_chapter_content(content, chapter_num)` of the batch script. -/
def format_chapter_content (content : List Char) (chapter_num : Nat) :
    List Char :=
  let filtered_lines := batchFilterGo chapter_num true [] (splitNl content)
  let text := joinWith ['\n'] filtered_lines
  if pyStrip text = [] then []
  else
    let result := joinWith ['\n', '\n'] (batchMergeGo [] [] (splitNl text))
    if pyStrip result = [] then pyStrip text else result

/-- `generate_markdown(chapter_num, formatted_content)` of the batch script. -/
def generate_markdown (chapter_num : Nat) (formatted_content : List Char) :
    List Char :=
  chars "# 第" ++ natChars chapter_num ++ chars "章\n\n" ++ formatted_content

/-- One entry of progress.json: the fields the batch processor reads or
    writes. -/
structure Entry where
  status : List Char
  notes : List Char
  created_at : List Char
  updated_at : List Char
deriving DecidableEq, Repr

/-- The mutable world of the batch processor: the progress ledger keyed by
    chapter number, and the result files, keyed by the chapter number that
    determines the fixed file name 第{num:02d}章.md. -/
structure PState where
  progress : Nat → Option Entry
  results : Nat → Option (List Char)

def updateE (f : Nat → Option Entry) (k : Nat) (v : Entry) :
    Nat → Option Entry :=
  fun n => if n = k then some v else f n

/-- `progress.get(chapter_key, {}).get('status') == 'completed'`. -/
def isCompleted (e : Option Entry) : Bool :=
  match e with
  | some r => decide (r.status = chars "completed")
  | none => false

/-- `process_chapter(chapter_num, ...)`: `raws` is the chapters_raw directory
    (read_chapter_content's existence check collapses into the map lookup),
    `now` stands for `datetime.now().isoformat()`.  `none` models the KeyError
    raised by `progress[chapter_key]['status'] = 'processing'` when the key is
    absent (only `.get` guards the completed check); otherwise the final
    ledger/result state and the returned Bool are produced. -/
def process_chapter (raws : Nat → Option (List Char)) (now : List Char)
    (chapter_num : Nat) (st : PState) : Option (PState × Bool) :=
  if isCompleted (st.progress chapter_num) then some (st, true)
  else
    match st.progress chapter_num with
    | none => none
    | some e0 =>
      let e1 : Entry := { e0 with status := chars "processing", updated_at := now }
      let skipE : Entry :=
        { e1 with
          status := chars "skipped"
          notes := chars "内容为空或缺失" }
      match raws chapter_num with
      | none =>
        some ({ st with progress := updateE st.progress chapter_num skipE }, false)
      | some content =>
        if content = [] ∨ (chars "本章节").isPrefixOf (pyStrip content) then
          some ({ st with progress := updateE st.progress chapter_num skipE }, false)
        else
          let md := generate_markdown chapter_num
            (format_chapter_content content chapter_num)
          let e2 : Entry :=
            { e1 with
              status := chars "completed"
              created_at := now
              updated_at := now
              notes := chars "已完成格式校对和Markdown生成" }
          some ({ progress := updateE st.progress chapter_num e2
                  results := updateF st.results chapter_num md }, true)

/-- C10: when the ledger entry for the chapter is already 'completed', the
    batch processor returns success with the state unchanged — no ledger
    entry is modified and no output file is written or overwritten. -/
theorem c10_completed_skip (raws : Nat → Option (List Char)) (now : List Char)
    (num : Nat) (st : PState) (h : isCompleted (st.progress num) = true) :
    process_chapter raws now num st = some (st, true) := by
  rw [process_chapter, if_pos h]

/-- Witness for C10 at a concrete completed ledger. -/
theorem c10_completed_skip_witness :
    isCompleted ((fun _ => some ⟨chars "completed", [], [], []⟩ :
      Nat → Option Entry) 5) = true ∧
    process_chapter (fun _ => none) [] 5
      ⟨fun _ => some ⟨chars "completed", [], [], []⟩, fun _ => none⟩ =
      some (⟨fun _ => some ⟨chars "completed", [], [], []⟩, fun _ => none⟩, true) :=
  ⟨by decide, c10_completed_skip (fun _ => none) [] 5
    ⟨fun _ => some ⟨chars "completed", [], [], []⟩, fun _ => none⟩ (by decide)⟩

end Hly
